import Mathlib

/-!
Verification of the Hybrid Sentinel forensics engine (`backend/engine.py`)
against its natural-language specification.

The engine is embedded shallowly:
* an `AccountId` is an opaque identifier with a total order (the source uses
  strings ordered lexicographically; we use `ℕ`, which preserves every
  order-theoretic fact the pipeline relies on);
* amounts and timestamps are exact rationals (timestamps in seconds);
* the transaction multigraph is the list of its edges in ingest order
  (the source sorts the frame by timestamp before building the graph);
* pattern labels form the closed set of §3 of the spec, ordered exactly as
  the lexicographic order of the corresponding label strings;
* Python dict/set state is threaded explicitly (insertion-ordered
  association lists, functional updates);
* the isolation-forest anomaly scorer is a black box per §4.8 and enters as
  a parameter `bonus : AccountId → ℚ`.

Arithmetic on `ℚ` goes through kernel-computable wrappers (`qAdd`, `qMul`,
…) so that every concrete run of the embedded pipeline can be checked by
`decide`; each wrapper is proved equal to the corresponding Mathlib
operation, and those equations are used wherever general reasoning is
needed.
-/

namespace Rift

/-! ### Kernel-computable rational arithmetic -/

def qAdd (a b : ℚ) : ℚ := mkRat (a.num * b.den + b.num * a.den) (a.den * b.den)

def qSub (a b : ℚ) : ℚ := mkRat (a.num * b.den - b.num * a.den) (a.den * b.den)

def qMul (a b : ℚ) : ℚ := mkRat (a.num * b.num) (a.den * b.den)

def qInv (a : ℚ) : ℚ := Rat.divInt (a.den : ℤ) a.num

def qDiv (a b : ℚ) : ℚ := qMul a (qInv b)

def qAbs (a : ℚ) : ℚ := if a < 0 then -a else a

def qFloor (a : ℚ) : ℤ := a.num / a.den

def qSum (l : List ℚ) : ℚ := l.foldl qAdd 0

@[simp] theorem qAdd_eq (a b : ℚ) : qAdd a b = a + b := (Rat.add_def' a b).symm

@[simp] theorem qSub_eq (a b : ℚ) : qSub a b = a - b := (Rat.sub_def' a b).symm

@[simp] theorem qMul_eq (a b : ℚ) : qMul a b = a * b := by
  rw [Rat.mul_def, Rat.normalize_eq_mkRat]; rfl

@[simp] theorem qInv_eq (a : ℚ) : qInv a = a⁻¹ := by
  rw [qInv, ← Rat.inv_def]; rfl

@[simp] theorem qDiv_eq (a b : ℚ) : qDiv a b = a / b := by
  rw [qDiv, qMul_eq, qInv_eq, div_eq_mul_inv]

@[simp] theorem qAbs_eq (a : ℚ) : qAbs a = |a| := by
  rcases lt_or_le a 0 with h | h
  · simp [qAbs, h, abs_of_neg h]
  · simp [qAbs, not_lt.2 h, abs_of_nonneg h]

@[simp] theorem qFloor_eq (a : ℚ) : qFloor a = ⌊a⌋ := Rat.floor_def.symm

theorem qSum_aux (l : List ℚ) : ∀ init : ℚ, l.foldl qAdd init = init + l.sum := by
  induction l with
  | nil => intro init; simp
  | cons a l ih =>
    intro init
    simp only [List.foldl_cons, List.sum_cons, qAdd_eq, ih, add_assoc]

@[simp] theorem qSum_eq (l : List ℚ) : qSum l = l.sum := by
  rw [qSum, qSum_aux, zero_add]

abbrev AccountId := ℕ

/-- One edge of the transaction multigraph (`G.add_edge` in `load_data`). -/
structure Edge where
  src : AccountId
  dst : AccountId
  amount : ℚ
  ts : ℚ
deriving DecidableEq

abbrev Graph := List Edge

/-- Append an element if it is not present yet (Python set/dict insertion order). -/
def insertNew (l : List AccountId) (a : AccountId) : List AccountId :=
  if a ∈ l then l else l ++ [a]

/-- First-occurrence deduplication, preserving order. -/
def dedupFirst (l : List AccountId) : List AccountId :=
  l.foldl insertNew []

/-- Nodes of the graph in networkx insertion order. -/
def nodesOf (G : Graph) : List AccountId :=
  G.foldl (fun acc e => insertNew (insertNew acc e.src) e.dst) []

def inEdges (G : Graph) (n : AccountId) : List Edge :=
  G.filter (fun e => e.dst = n)

def outEdges (G : Graph) (n : AccountId) : List Edge :=
  G.filter (fun e => e.src = n)

def inDeg (G : Graph) (n : AccountId) : ℕ := (inEdges G n).length

def outDeg (G : Graph) (n : AccountId) : ℕ := (outEdges G n).length

/-- `G.in_degree(n) + G.out_degree(n)`. -/
def totalDeg (G : Graph) (n : AccountId) : ℕ := inDeg G n + outDeg G n

/-- Distinct successors of a node, in first-edge order (`G.successors`). -/
def succsOf (G : Graph) (n : AccountId) : List AccountId :=
  dedupFirst ((outEdges G n).map (·.dst))

/-- Distinct predecessors of a node (`G.predecessors`). -/
def predsOf (G : Graph) (n : AccountId) : List AccountId :=
  dedupFirst ((inEdges G n).map (·.src))

/-- All parallel edges from `u` to `v` (`_get_edges_between`). -/
def edgesBetween (G : Graph) (u v : AccountId) : List Edge :=
  G.filter (fun e => e.src = u ∧ e.dst = v)

/-- Undirected neighbour set `set(G.predecessors(n)) | set(G.successors(n))`. -/
def undirNbrs (G : Graph) (n : AccountId) : List AccountId :=
  dedupFirst (predsOf G n ++ succsOf G n)

def qMin : List ℚ → ℚ
  | [] => 0
  | a :: rest => rest.foldl min a

def qMax : List ℚ → ℚ
  | [] => 0
  | a :: rest => rest.foldl max a

/-! ### Pattern labels

Constructors are listed in the lexicographic order of the engine's label
strings (`cycle_length_3 < … < fan_in < … < structuring`), so that the
order on `Pat` below coincides with the string order used by `sorted`. -/

inductive Pat where
  | cycle3
  | cycle4
  | cycle5
  | fanIn
  | fanOut
  | highVelocity
  | highVelocity24h
  | isolationCluster
  | lowVariance
  | merchant
  | payroll
  | shellAccount
  | smurfing
  | structuring
deriving DecidableEq, Fintype

def Pat.idx : Pat → ℕ
  | .cycle3 => 0
  | .cycle4 => 1
  | .cycle5 => 2
  | .fanIn => 3
  | .fanOut => 4
  | .highVelocity => 5
  | .highVelocity24h => 6
  | .isolationCluster => 7
  | .lowVariance => 8
  | .merchant => 9
  | .payroll => 10
  | .shellAccount => 11
  | .smurfing => 12
  | .structuring => 13

theorem Pat.idx_injective : Function.Injective Pat.idx := by decide

instance : LinearOrder Pat := LinearOrder.lift' Pat.idx Pat.idx_injective

/-- `pattern_weights` of `calculate_suspicion_scores` (labels absent from the
dict weigh 0, matching `pattern_weights.get(p, 0)`). -/
def patWeight : Pat → ℚ
  | .cycle3 => 30
  | .cycle4 => 25
  | .cycle5 => 20
  | .shellAccount => 20
  | .smurfing => 15
  | .fanIn => 15
  | .fanOut => 15
  | .structuring => 12
  | .highVelocity => 5
  | .highVelocity24h => 10
  | .lowVariance => 10
  | _ => 0

/-- `STRUCTURAL_PATTERNS`. -/
def structuralPats : Finset Pat :=
  {Pat.cycle3, Pat.cycle4, Pat.cycle5, Pat.shellAccount, Pat.smurfing,
   Pat.fanIn, Pat.fanOut, Pat.structuring, Pat.lowVariance}

/-- `STRONG_FRAUD_PATTERNS`. -/
def strongFraudPats : Finset Pat :=
  {Pat.cycle3, Pat.cycle4, Pat.cycle5, Pat.shellAccount, Pat.smurfing}

/-- `f"cycle_length_{length}"` for the lengths 3–5 the DFS can produce. -/
def cycleLenPat (n : ℕ) : Pat :=
  if n = 3 then Pat.cycle3 else if n = 4 then Pat.cycle4 else Pat.cycle5

/-! ### Rounding

Python's `round(x, 1)` rounds half to even at one decimal place. -/

def roundHalfEven (x : ℚ) : ℤ :=
  let f : ℤ := qFloor x
  let r : ℚ := qSub x (f : ℚ)
  if r < mkRat 1 2 then f
  else if mkRat 1 2 < r then f + 1
  else if f % 2 = 0 then f else f + 1

/-- `round(x, 1)`. -/
def pyRound1 (x : ℚ) : ℚ := qDiv ((roundHalfEven (qMul 10 x) : ℤ) : ℚ) 10

/-! ### Cycle constraint validation (`_check_cycle_constraints`) -/

/-- 72 hours in seconds. -/
def span72h : ℚ := 259200

/-- Constraint 1 of `_check_cycle_constraints`: all chosen edges within 72h. -/
def tempOk (edges : List Edge) : Bool :=
  !(qSub (qMax (edges.map (·.ts))) (qMin (edges.map (·.ts))) > span72h)

def meanAmt (edges : List Edge) : ℚ :=
  qDiv (qSum (edges.map (·.amount))) (edges.length : ℚ)

/-- Constraint 2: every chosen amount within 15% of the mean. -/
def amtOk (edges : List Edge) : Bool :=
  edges.all
    (fun e => qDiv (qAbs (qSub e.amount (meanAmt edges))) (meanAmt edges) ≤
      mkRat 15 100)

/-- `min(amounts)/max(amounts) if max(amounts) > 0 else 0`. -/
def flowFrac (edges : List Edge) : ℚ :=
  if 0 < qMax (edges.map (·.amount)) then
    qDiv (qMin (edges.map (·.amount))) (qMax (edges.map (·.amount)))
  else 0

/-- Constraint 3: flow conservation `min/max ≥ 0.70`. -/
def flowOk (edges : List Edge) : Bool := !(flowFrac edges < mkRat 70 100)

/-- `_external_degree_in_window`: transactions with non-cycle peers inside
the time window, parallel edges counted individually. -/
def extDegInWindow (G : Graph) (n : AccountId) (cyc : List AccountId)
    (tmin tmax : ℚ) : ℕ :=
  ((inEdges G n).filter
      (fun e => e.src ∉ cyc ∧ tmin ≤ e.ts ∧ e.ts ≤ tmax)).length +
  ((outEdges G n).filter
      (fun e => e.dst ∉ cyc ∧ tmin ≤ e.ts ∧ e.ts ≤ tmax)).length

/-- Constraint 4: every cycle node's external degree within the window stays
at or below the adaptive limit. -/
def extOk (G : Graph) (extLimit : ℕ) (path : List AccountId)
    (tmin tmax : ℚ) : Bool :=
  path.all (fun n => extDegInWindow G n path tmin tmax ≤ extLimit)

structure CycleResult where
  nodes : List AccountId
  edges : List Edge
  total : ℚ
deriving DecidableEq

/-- `_check_cycle_constraints` — the four sequential checks of the source. -/
def checkCycleConstraints (G : Graph) (extLimit : ℕ) (path : List AccountId)
    (edges : List Edge) : Option CycleResult :=
  let tmin := qMin (edges.map (·.ts))
  let tmax := qMax (edges.map (·.ts))
  if qSub tmax tmin > span72h then none
  else if meanAmt edges = 0 then none
  else if !amtOk edges then none
  else if flowFrac edges < mkRat 70 100 then none
  else if !extOk G extLimit path tmin tmax then none
  else some ⟨path, edges, qSum (edges.map (·.amount))⟩

/-! ### Composite scoring (`calculate_suspicion_scores`)

The isolation-forest bonus is a black-box parameter `bonus` (§4.8 of the
spec: only the normalized bonus is observable). -/

/-- All pattern labels, in ascending (lexicographic) order. -/
def allPats : List Pat :=
  [.cycle3, .cycle4, .cycle5, .fanIn, .fanOut, .highVelocity,
   .highVelocity24h, .isolationCluster, .lowVariance, .merchant, .payroll,
   .shellAccount, .smurfing, .structuring]

/-- The elements of a pattern set listed in ascending order (the engine's
`sorted(...)` on a set of label strings). -/
def sortedPats (pats : Finset Pat) : List Pat :=
  allPats.filter (· ∈ pats)

/-- Weighted pattern sum; the source iterates the Python set, we iterate its
elements in ascending order (addition is commutative, so the value agrees). -/
def patScore (pats : Finset Pat) : ℚ :=
  qSum ((sortedPats pats).map patWeight)

/-- First scoring loop: weighted pattern sum capped at 70, velocity bonus,
anomaly bonus.  `preliminary_scores.get(n, 0)` returns 0 for absent keys,
hence the `n ∈ nodes` guard. -/
def prelimOf (nodes : List AccountId) (patOf : AccountId → Finset Pat)
    (vel vel24 : List AccountId) (bonus : AccountId → ℚ) (n : AccountId) : ℚ :=
  if n ∈ nodes then
    let pats := patOf n
    let base := min (patScore pats) 70
    let hasStruct := (pats ∩ structuralPats).Nonempty
    let s := if n ∈ vel ∧ hasStruct then qAdd base 10
             else if n ∈ vel24 ∧ hasStruct then qAdd base 5
             else base
    qAdd s (bonus n)
  else 0

/-- One iteration of the second scoring loop (isolation-cluster bonus).
The loop reads and writes the same `preliminary_scores` dict, so the
neighbour test sees scores already bumped for earlier nodes. -/
def isoStep (nbrs : AccountId → List AccountId)
    (acc : (AccountId → ℚ) × (AccountId → Finset Pat)) (node : AccountId) :
    (AccountId → ℚ) × (AccountId → Finset Pat) :=
  if acc.1 node ≤ 0 then acc
  else if 2 ≤ ((nbrs node).filter (fun m => 30 < acc.1 m)).length then
    (Function.update acc.1 node (qAdd (acc.1 node) 8),
     Function.update acc.2 node (insert Pat.isolationCluster (acc.2 node)))
  else acc

/-- The second scoring loop of `calculate_suspicion_scores`. -/
def isoPass (nbrs : AccountId → List AccountId) (order : List AccountId)
    (sc : AccountId → ℚ) (pats : AccountId → Finset Pat) :
    (AccountId → ℚ) × (AccountId → Finset Pat) :=
  order.foldl (isoStep nbrs) (sc, pats)

/-- The isolation-cluster pass as the spec describes it: the bonus for every
node is decided against the steps-1–3 preliminary scores of all nodes
(defined from the spec's words, for comparison with `isoPass`). -/
def isoPassTwoPhase (nbrs : AccountId → List AccountId)
    (order : List AccountId) (sc : AccountId → ℚ) (n : AccountId) : ℚ :=
  if n ∈ order ∧ 0 < sc n ∧
      2 ≤ ((nbrs n).filter (fun m => 30 < sc m)).length then qAdd (sc n) 8
  else sc n

/-- Labels removed before the velocity-only test. -/
def keepAlways : Finset Pat := {Pat.isolationCluster, Pat.payroll, Pat.merchant}

def velocityOnly : Finset Pat :=
  {Pat.highVelocity, Pat.highVelocity24h, Pat.lowVariance}

/-- The three suppression rules of the final scoring loop, before the flag
gate. -/
def suppressNode (immune hubs : List AccountId) (pats : Finset Pat)
    (n : AccountId) (s : ℚ) : ℚ :=
  let active := pats \ keepAlways
  let s1 := if active ⊆ velocityOnly then 0 else s
  let strong := (pats ∩ strongFraudPats).Nonempty
  let s2 := if n ∈ immune ∧ ¬strong then 0 else s1
  if n ∈ hubs ∧ ¬strong then 0 else s2

/-- `score = round(max(0.0, min(100.0, score)), 1); if score < 25: score = 0`. -/
def finalGate (s : ℚ) : ℚ :=
  let r := pyRound1 (max 0 (min 100 s))
  if r < 25 then 0 else r

/-- `calculate_suspicion_scores`: preliminary pass, isolation-cluster pass,
then suppression and flag gate, emitting `suspicion_scores` in node order.
Returns the final pattern map and the score list. -/
def calcScores (G : Graph) (nodes : List AccountId)
    (patOf : AccountId → Finset Pat) (vel vel24 hubs immune : List AccountId)
    (bonus : AccountId → ℚ) :
    (AccountId → Finset Pat) × List (AccountId × ℚ) :=
  let sc := prelimOf nodes patOf vel vel24 bonus
  let ip := isoPass (undirNbrs G) nodes sc patOf
  (ip.2, nodes.map (fun n =>
    (n, finalGate (suppressNode immune hubs (ip.2 n) n (ip.1 n)))))

/-! ## C6 — boundary acceptance of the cycle constraints -/

/-- C6: cycle edge-selection constraint checking accepts boundary values: a
selection whose temporal span is exactly 72h passes constraint 1 while any
strictly larger span makes `_check_cycle_constraints` reject; amounts all
deviating from the mean by exactly 15% pass constraint 2; a min/max amount
quotient of exactly 0.70 passes constraint 3. -/
theorem c6_boundary_values :
    (∀ es : List Edge,
        qMax (es.map (·.ts)) - qMin (es.map (·.ts)) = span72h →
        tempOk es = true) ∧
    (∀ (G : Graph) (lim : ℕ) (p : List AccountId) (es : List Edge),
        span72h < qMax (es.map (·.ts)) - qMin (es.map (·.ts)) →
        checkCycleConstraints G lim p es = none) ∧
    (∀ es : List Edge, 0 < meanAmt es →
        (∀ e ∈ es, |e.amount - meanAmt es| = 0.15 * meanAmt es) →
        amtOk es = true) ∧
    (∀ es : List Edge, 0 < qMax (es.map (·.amount)) →
        qMin (es.map (·.amount)) = 0.70 * qMax (es.map (·.amount)) →
        flowOk es = true) := by
  have h015 : (mkRat 15 100 : ℚ) = 0.15 := by
    rw [Rat.mkRat_eq_div]; norm_num
  have h070 : (mkRat 70 100 : ℚ) = 0.70 := by
    rw [Rat.mkRat_eq_div]; norm_num
  refine ⟨fun es h => ?_, fun G lim p es h => ?_, fun es hm h => ?_,
    fun es hmax h => ?_⟩
  · simp only [tempOk, qSub_eq, h, Bool.not_eq_true']
    simp
  · simp only [checkCycleConstraints]
    rw [if_pos (by simpa using h)]
  · simp only [amtOk, List.all_eq_true, decide_eq_true_eq, qDiv_eq, qAbs_eq,
      qSub_eq, h015]
    intro e he
    rw [h e he, mul_div_assoc, div_self (ne_of_gt hm), mul_one]
  · simp only [flowOk, flowFrac, if_pos hmax, qDiv_eq, h, h070,
      Bool.not_eq_true']
    rw [mul_div_assoc, div_self (ne_of_gt hmax), mul_one]
    simp

/-- Edge selection spanning exactly 72 hours. -/
def c6span : List Edge := [⟨1, 2, 100, 0⟩, ⟨2, 1, 100, 259200⟩]

/-- Edge selection spanning one second more than 72 hours. -/
def c6over : List Edge := [⟨1, 2, 100, 0⟩, ⟨2, 1, 100, 259201⟩]

/-- Edge selection whose two amounts deviate from the mean by exactly 15%. -/
def c6dev : List Edge := [⟨1, 2, 85, 0⟩, ⟨2, 1, 115, 0⟩]

/-- Edge selection with min/max amount quotient exactly 0.70. -/
def c6flow : List Edge := [⟨1, 2, 70, 0⟩, ⟨2, 1, 100, 0⟩]

/-- Witness for C6 at concrete edge selections. -/
theorem c6_boundary_values_witness :
    tempOk c6span = true ∧
    checkCycleConstraints [] 0 [] c6over = none ∧
    amtOk c6dev = true ∧
    flowOk c6flow = true := by
  have hmean : meanAmt c6dev = 100 := by decide
  refine ⟨c6_boundary_values.1 _ ?_, c6_boundary_values.2.1 [] 0 [] _ ?_,
    c6_boundary_values.2.2.1 _ ?_ ?_, c6_boundary_values.2.2.2 _ ?_ ?_⟩
  · have h1 : qMax (c6span.map (·.ts)) = 259200 ∧
        qMin (c6span.map (·.ts)) = 0 := by decide
    rw [h1.1, h1.2, span72h]; norm_num
  · have h1 : qMax (c6over.map (·.ts)) = 259201 ∧
        qMin (c6over.map (·.ts)) = 0 := by decide
    rw [h1.1, h1.2, span72h]; norm_num
  · rw [hmean]; norm_num
  · rw [hmean]
    intro e he
    simp only [c6dev, List.mem_cons, List.not_mem_nil, or_false] at he
    rcases he with rfl | rfl
    · norm_num
    · norm_num
  · have h1 : qMax (c6flow.map (·.amount)) = 100 := by decide
    rw [h1]; norm_num
  · have h1 : qMax (c6flow.map (·.amount)) = 100 ∧
        qMin (c6flow.map (·.amount)) = 70 := by decide
    rw [h1.1, h1.2]; norm_num

/-! ## C3 — the flag gate rounds before comparing with the threshold

The source computes `score = round(max(0.0, min(100.0, score)), 1)` and only
then compares with `FLAG_THRESHOLD`, so a pre-rounding score of 24.96 is
stored as 25.0, not 0. -/

/-- C3 (amended): the flag gate compares the clamped-and-rounded
post-suppression score with 25: the stored score is 0 when that rounded
value is below 25 and the rounded value itself otherwise; consequently every
stored score is 0 or at least 25. -/
theorem c3_gate_applies_to_rounded_score :
    ∀ (immune hubs : List AccountId) (pats : Finset Pat) (n : AccountId)
      (s : ℚ),
      (pyRound1 (max 0 (min 100 (suppressNode immune hubs pats n s))) < 25 →
        finalGate (suppressNode immune hubs pats n s) = 0) ∧
      (25 ≤ pyRound1 (max 0 (min 100 (suppressNode immune hubs pats n s))) →
        finalGate (suppressNode immune hubs pats n s) =
          pyRound1 (max 0 (min 100 (suppressNode immune hubs pats n s)))) ∧
      (finalGate (suppressNode immune hubs pats n s) = 0 ∨
        25 ≤ finalGate (suppressNode immune hubs pats n s)) := by
  intro immune hubs pats n s
  by_cases h : pyRound1 (max 0 (min 100 (suppressNode immune hubs pats n s))) < 25
  · exact ⟨fun _ => by simp [finalGate, h], fun hle => absurd h (not_lt.2 hle),
      Or.inl (by simp [finalGate, h])⟩
  · refine ⟨fun hlt => absurd hlt h, fun _ => by simp [finalGate, h],
      Or.inr ?_⟩
    simp only [finalGate, if_neg h]
    exact not_lt.1 h

/-- Witness for C3 (amended) at a sub-threshold and an above-threshold score. -/
theorem c3_gate_applies_to_rounded_score_witness :
    finalGate (suppressNode [] [] {Pat.structuring} 1 10) = 0 ∧
    finalGate (suppressNode [] [] {Pat.cycle3} 1 30) =
      pyRound1 (max 0 (min 100 (suppressNode [] [] {Pat.cycle3} 1 30))) :=
  ⟨(c3_gate_applies_to_rounded_score [] [] {Pat.structuring} 1 10).1 (by decide),
   (c3_gate_applies_to_rounded_score [] [] {Pat.cycle3} 1 30).2.1 (by decide)⟩

/-- Patterns of the C3 counterexample node: structuring (12) + low variance
(10) weigh 22. -/
def c3pats : Finset Pat := {Pat.structuring, Pat.lowVariance}

def c3patOf : AccountId → Finset Pat := fun _ => c3pats

/-- Anomaly bonus 2.96, inside the scorer's [0, 15] range. -/
def c3bonus : AccountId → ℚ := fun _ => mkRat 296 100

/-- Steps-1–3 preliminary score of the C3 node: 22 + 2.96 = 24.96. -/
def c3pre : ℚ := prelimOf [7] c3patOf [] [] c3bonus 7

/-- C3 counterexample: a node whose post-suppression pre-rounding score is
24.96 (< 25) is stored with score 25, not 0: the gate rounds first. -/
theorem c3_counterexample :
    suppressNode [] [] c3pats 7 c3pre = mkRat 2496 100 ∧
    mkRat 2496 100 < 25 ∧
    (calcScores [] [7] c3patOf [] [] [] [] c3bonus).2 = [(7, 25)] := by
  decide

/-! ## C4 — the isolation-cluster pass reads already-bumped scores

The second scoring loop mutates `preliminary_scores` while iterating, so a
node's neighbour test can observe the +8 bonus already granted to an
earlier node; the outcome is not a function of the steps-1–3 preliminary
scores alone and depends on the processing order. -/

theorem isoStep_ne (nbrs : AccountId → List AccountId)
    (acc : (AccountId → ℚ) × (AccountId → Finset Pat)) (a x : AccountId)
    (hx : x ≠ a) :
    (isoStep nbrs acc a).1 x = acc.1 x ∧ (isoStep nbrs acc a).2 x = acc.2 x := by
  unfold isoStep
  split
  · exact ⟨rfl, rfl⟩
  · split
    · exact ⟨Function.update_noteq hx _ _, Function.update_noteq hx _ _⟩
    · exact ⟨rfl, rfl⟩

theorem isoPass_not_mem (nbrs : AccountId → List AccountId)
    (order : List AccountId) (x : AccountId) (hx : x ∉ order) :
    ∀ (sc : AccountId → ℚ) (pats : AccountId → Finset Pat),
      (isoPass nbrs order sc pats).1 x = sc x ∧
      (isoPass nbrs order sc pats).2 x = pats x := by
  induction order with
  | nil => exact fun sc pats => ⟨rfl, rfl⟩
  | cons a l ih =>
    intro sc pats
    have hxa : x ≠ a := fun h => hx (h ▸ List.mem_cons_self a l)
    have hxl : x ∉ l := fun h => hx (List.mem_cons_of_mem a h)
    have hstep := isoStep_ne nbrs (sc, pats) a x hxa
    have : isoPass nbrs (a :: l) sc pats =
        isoPass nbrs l (isoStep nbrs (sc, pats) a).1
          (isoStep nbrs (sc, pats) a).2 := by
      simp [isoPass]
    rw [this]
    rcases ih hxl (isoStep nbrs (sc, pats) a).1 (isoStep nbrs (sc, pats) a).2
      with ⟨h1, h2⟩
    exact ⟨h1.trans hstep.1, h2.trans hstep.2⟩

theorem isoPass_append (nbrs : AccountId → List AccountId)
    (l₁ l₂ : List AccountId) (sc : AccountId → ℚ)
    (pats : AccountId → Finset Pat) :
    isoPass nbrs (l₁ ++ l₂) sc pats =
      isoPass nbrs l₂ (isoPass nbrs l₁ sc pats).1
        (isoPass nbrs l₁ sc pats).2 := by
  simp [isoPass, List.foldl_append]

/-- C4 (amended): the bonus for a node `v` is decided against the scores
current when `v` is processed — the steps-1–3 preliminary scores of nodes
processed after `v`, but the already-bumped scores of nodes processed before
`v`; `v` receives `+8` and the label iff its own preliminary score is
positive and at least 2 of its undirected neighbours have current score
above 30. -/
theorem c4_bonus_uses_current_scores (nbrs : AccountId → List AccountId)
    (l₁ l₂ : List AccountId) (v : AccountId) (sc : AccountId → ℚ)
    (pats : AccountId → Finset Pat) (h₁ : v ∉ l₁) (h₂ : v ∉ l₂) :
    (isoPass nbrs (l₁ ++ v :: l₂) sc pats).1 v =
      (if 0 < sc v ∧ 2 ≤ ((nbrs v).filter
          (fun x => 30 < (isoPass nbrs l₁ sc pats).1 x)).length
       then sc v + 8 else sc v) ∧
    (Pat.isolationCluster ∈ (isoPass nbrs (l₁ ++ v :: l₂) sc pats).2 v ↔
      (0 < sc v ∧ 2 ≤ ((nbrs v).filter
          (fun x => 30 < (isoPass nbrs l₁ sc pats).1 x)).length) ∨
        Pat.isolationCluster ∈ pats v) := by
  have hm := isoPass_not_mem nbrs l₁ v h₁ sc pats
  set m := (isoPass nbrs l₁ sc pats).1 with hmdef
  set mp := (isoPass nbrs l₁ sc pats).2 with hmpdef
  have hsplit : isoPass nbrs (l₁ ++ v :: l₂) sc pats =
      isoPass nbrs l₂ (isoStep nbrs (m, mp) v).1 (isoStep nbrs (m, mp) v).2 := by
    rw [isoPass_append]
    rfl
  rw [hsplit]
  rcases isoPass_not_mem nbrs l₂ v h₂ (isoStep nbrs (m, mp) v).1
    (isoStep nbrs (m, mp) v).2 with ⟨hv1, hv2⟩
  rw [hv1, hv2]
  by_cases hpos : m v ≤ 0
  · have hns : ¬ 0 < sc v := by rw [← hm.1]; exact not_lt.2 hpos
    have hcond : ¬(0 < sc v ∧
        2 ≤ ((nbrs v).filter (fun x => 30 < m x)).length) := fun hc => hns hc.1
    unfold isoStep
    rw [if_pos hpos]
    refine ⟨by rw [if_neg hcond]; exact hm.1, ?_⟩
    show Pat.isolationCluster ∈ mp v ↔ _
    rw [hm.2]
    simp [hns]
  · have hpos' : 0 < sc v := by rw [← hm.1]; exact not_le.1 hpos
    by_cases hcnt : 2 ≤ ((nbrs v).filter (fun x => 30 < m x)).length
    · unfold isoStep
      rw [if_neg hpos, if_pos hcnt]
      constructor
      · show Function.update m v (qAdd (m v) 8) v = _
        rw [Function.update_same, if_pos ⟨hpos', hcnt⟩, qAdd_eq, hm.1]
      · show Pat.isolationCluster ∈
            Function.update mp v (insert Pat.isolationCluster (mp v)) v ↔ _
        rw [Function.update_same, hm.2]
        simp [hpos', hcnt]
    · have hcond : ¬(0 < sc v ∧
          2 ≤ ((nbrs v).filter (fun x => 30 < m x)).length) := fun hc => hcnt hc.2
      unfold isoStep
      rw [if_neg hpos, if_neg hcnt]
      refine ⟨by rw [if_neg hcond]; exact hm.1, ?_⟩
      show Pat.isolationCluster ∈ mp v ↔ _
      rw [hm.2]
      simp [hcnt]

/-- Graph of the C4 scenario: edges 3→1, 4→1, 3→2, 1→2. -/
def c4G : Graph := [⟨3, 1, 100, 0⟩, ⟨4, 1, 100, 1⟩, ⟨3, 2, 100, 2⟩, ⟨1, 2, 100, 3⟩]

def c4patOf : AccountId → Finset Pat := fun n =>
  if n = 1 then {Pat.structuring, Pat.lowVariance}
  else if n = 2 then ∅ else {Pat.cycle3}

def c4bonus : AccountId → ℚ := fun n => if n = 1 then 3 else if n = 2 then 5 else 1

/-- Steps-1–3 preliminary scores of the C4 scenario: node 1 ↦ 25, node 2 ↦ 5,
nodes 3 and 4 ↦ 31. -/
def c4sc : AccountId → ℚ := prelimOf (nodesOf c4G) c4patOf [] [] c4bonus

def c4res : (AccountId → ℚ) × (AccountId → Finset Pat) :=
  isoPass (undirNbrs c4G) (nodesOf c4G) c4sc c4patOf

/-- C4 counterexample: node 2 has preliminary score 5 and only ONE undirected
neighbour with steps-1–3 preliminary score above 30 (node 3; node 1 has 25),
yet the engine's pass grants it the +8 bonus and the `isolation_cluster`
label, because node 1's score had already been bumped to 33 when node 2 was
processed.  The two-phase reading of the spec leaves node 2 at 5. -/
theorem c4_counterexample :
    c4sc 1 = 25 ∧ c4sc 2 = 5 ∧ c4sc 3 = 31 ∧
    ((undirNbrs c4G 2).filter (fun m => 30 < c4sc m)).length = 1 ∧
    c4res.1 2 = 13 ∧
    Pat.isolationCluster ∈ c4res.2 2 ∧
    isoPassTwoPhase (undirNbrs c4G) (nodesOf c4G) c4sc 2 = 5 := by
  decide

/-- Witness for C4 (amended), instantiated on the C4 scenario at node 2
(`nodesOf c4G = [3, 1, 4, 2]`). -/
theorem c4_bonus_uses_current_scores_witness :
    (isoPass (undirNbrs c4G) ([3, 1, 4] ++ 2 :: []) c4sc c4patOf).1 2 =
      (if 0 < c4sc 2 ∧ 2 ≤ ((undirNbrs c4G 2).filter
          (fun x => 30 < (isoPass (undirNbrs c4G) [3, 1, 4] c4sc c4patOf).1 x)).length
       then c4sc 2 + 8 else c4sc 2) ∧
    (Pat.isolationCluster ∈
        (isoPass (undirNbrs c4G) ([3, 1, 4] ++ 2 :: []) c4sc c4patOf).2 2 ↔
      (0 < c4sc 2 ∧ 2 ≤ ((undirNbrs c4G 2).filter
          (fun x => 30 < (isoPass (undirNbrs c4G) [3, 1, 4] c4sc c4patOf).1 x)).length) ∨
        Pat.isolationCluster ∈ c4patOf 2) :=
  c4_bonus_uses_current_scores (undirNbrs c4G) [3, 1, 4] [] 2 c4sc c4patOf
    (by decide) (by decide)

/-! ## C5 — shell hardening (`detect_shells`, rules 1–5)

Internal/external edges are counted over distinct successors, as the source
iterates `G.successors(m)`. -/

/-- Rule-4 internal count: ordered pairs `(m, succ)` with both ends in the
member set. -/
def internalCount (G : Graph) (ms : List AccountId) : ℕ :=
  (ms.map (fun m => ((succsOf G m).filter (· ∈ ms)).length)).sum

/-- Rule-4 external count: ordered pairs `(m, succ)` with the successor
outside the member set. -/
def externalCount (G : Graph) (ms : List AccountId) : ℕ :=
  (ms.map (fun m => ((succsOf G m).filter (· ∉ ms)).length)).sum

def avgDeg (G : Graph) (ms : List AccountId) : ℚ :=
  qDiv (qSum (ms.map (fun m => (totalDeg G m : ℚ)))) (ms.length : ℚ)

def maxDegOf (G : Graph) (ms : List AccountId) : ℕ :=
  (ms.map (totalDeg G)).foldr max 0

/-- Rule-5 inbound volume: parallel edges counted individually. -/
def totalInAmt (G : Graph) (ms : List AccountId) : ℚ :=
  qSum (ms.map (fun m => qSum ((inEdges G m).map (·.amount))))

def totalOutAmt (G : Graph) (ms : List AccountId) : ℚ :=
  qSum (ms.map (fun m => qSum ((outEdges G m).map (·.amount))))

/-- The five sequential shell-hardening rules; `true` means the chain
survives them all. -/
def harden (G : Graph) (ms : List AccountId) : Bool :=
  if 12 < ms.length then false
  else if 4 < avgDeg G ms then false
  else if 8 < maxDegOf G ms then false
  else if 0 < internalCount G ms ∧
      qMul (internalCount G ms : ℚ) (mkRat 1 2) < (externalCount G ms : ℚ)
    then false
  else if 0 < qAdd (totalInAmt G ms) (totalOutAmt G ms) ∧
      mkRat 3 10 < qDiv (qAbs (qSub (totalInAmt G ms) (totalOutAmt G ms)))
        (qAdd (totalInAmt G ms) (totalOutAmt G ms))
    then false
  else true

/-- C5 counterexample: a chain with ZERO internal edges and three external
edges — the claim requires rejection (3 > 0.5·0), but the source's rule 4
only fires when `internal_edges > 0`, and all other rules pass, so the chain
is accepted. -/
def c5G : Graph :=
  [⟨4, 1, 100, 0⟩, ⟨1, 5, 100, 1⟩, ⟨4, 2, 100, 2⟩, ⟨2, 5, 100, 3⟩,
   ⟨4, 3, 100, 4⟩, ⟨3, 5, 100, 5⟩]

def c5ms : List AccountId := [1, 2, 3]

theorem c5_zero_internal_accepted :
    internalCount c5G c5ms = 0 ∧ externalCount c5G c5ms = 3 ∧
    harden c5G c5ms = true := by decide

/-- C5 (amended): the external-edge rule rejects iff the chain has at least
one internal edge and strictly more external edges than half the internal
count; equality is accepted, and a chain with zero internal edges is never
rejected by this rule (when the four other rules pass, it is accepted no
matter how many external edges it has). -/
theorem c5_external_edge_rule (G : Graph) (ms : List AccountId) :
    (0 < internalCount G ms → internalCount G ms < 2 * externalCount G ms →
      harden G ms = false) ∧
    (ms.length ≤ 12 → avgDeg G ms ≤ 4 → maxDegOf G ms ≤ 8 →
      (0 < totalInAmt G ms + totalOutAmt G ms →
        |totalInAmt G ms - totalOutAmt G ms| /
          (totalInAmt G ms + totalOutAmt G ms) ≤ 0.3) →
      (internalCount G ms = 0 ∨
        2 * externalCount G ms ≤ internalCount G ms) →
      harden G ms = true) := by
  have hcast : (qMul (internalCount G ms : ℚ) (mkRat 1 2) <
      (externalCount G ms : ℚ)) ↔
      internalCount G ms < 2 * externalCount G ms := by
    rw [qMul_eq, show (mkRat 1 2 : ℚ) = 1 / 2 by rw [Rat.mkRat_eq_div]; norm_num]
    rw [mul_one_div, div_lt_iff₀ (by norm_num : (0:ℚ) < 2)]
    rw [show (externalCount G ms : ℚ) * 2 = ((2 * externalCount G ms : ℕ) : ℚ) by
      push_cast; ring]
    exact_mod_cast Iff.rfl
  have h310 : (mkRat 3 10 : ℚ) = 0.3 := by rw [Rat.mkRat_eq_div]; norm_num
  constructor
  · intro hpos hlt
    unfold harden
    split
    · rfl
    · split
      · rfl
      · split
        · rfl
        · rw [if_pos ⟨hpos, hcast.2 hlt⟩]
  · intro h1 h2 h3 h5 h4
    unfold harden
    rw [if_neg (not_lt.2 h1), if_neg (not_lt.2 h2), if_neg (not_lt.2 h3)]
    have hr4 : ¬(0 < internalCount G ms ∧
        qMul (internalCount G ms : ℚ) (mkRat 1 2) < (externalCount G ms : ℚ)) := by
      rintro ⟨hpos, hq⟩
      rcases h4 with h0 | hle
      · exact absurd h0 (Nat.pos_iff_ne_zero.1 hpos)
      · exact absurd (hcast.1 hq) (not_lt.2 hle)
    rw [if_neg hr4]
    have hr5 : ¬(0 < qAdd (totalInAmt G ms) (totalOutAmt G ms) ∧
        mkRat 3 10 < qDiv (qAbs (qSub (totalInAmt G ms) (totalOutAmt G ms)))
          (qAdd (totalInAmt G ms) (totalOutAmt G ms))) := by
      rintro ⟨hpos, hq⟩
      rw [qAdd_eq] at hpos
      rw [qDiv_eq, qAbs_eq, qSub_eq, qAdd_eq, h310] at hq
      exact absurd (h5 hpos) (not_le.2 hq)
    rw [if_neg hr5]

/-- Witness graph for the rejection branch of the C5 amended claim. -/
def c5Grej : Graph :=
  [⟨1, 2, 100, 0⟩, ⟨1, 7, 100, 1⟩, ⟨1, 8, 100, 2⟩, ⟨1, 9, 100, 3⟩]

/-- Witness graph for the equality-accepted branch (2·external = internal). -/
def c5Geq : Graph := [⟨1, 2, 100, 0⟩, ⟨2, 3, 100, 1⟩, ⟨3, 6, 100, 2⟩]

/-- Witness for C5 (amended): rejection with internal 1 < 2·external 3, and
acceptance with internal 2 = 2·external 1 (the 0.5 boundary). -/
theorem c5_external_edge_rule_witness :
    harden c5Grej [1, 2] = false ∧ harden c5Geq [1, 2, 3] = true := by
  constructor
  · exact (c5_external_edge_rule c5Grej [1, 2]).1 (by decide) (by decide)
  · refine (c5_external_edge_rule c5Geq [1, 2, 3]).2 (by decide) (by decide)
      (by decide) ?_ (by decide)
    intro h
    have hin : totalInAmt c5Geq [1, 2, 3] = 200 := by decide
    have hout : totalOutAmt c5Geq [1, 2, 3] = 300 := by decide
    rw [hin, hout]
    norm_num

/-! ## C1 — global ring arbitration (`_arbitrate_rings`)

When a candidate with overlap ratio at most 0.6 is accepted, the source
keeps ALL its members (`ring_members = sorted(members)`), including nodes
already claimed by earlier rings; `used_nodes` only governs the overlap
ratio and `node_to_ring_idx` is overwritten. -/

inductive RingType where
  | cycle
  | smurfing
  | shellNet
deriving DecidableEq

/-- `TYPE_PRIORITY = {"cycle": 0, "smurfing": 1, "shell_network": 2}`. -/
def typePrio : RingType → ℕ
  | .cycle => 0
  | .smurfing => 1
  | .shellNet => 2

/-- Position of the pattern-type string in lexicographic order
(`"cycle" < "shell_network" < "smurfing"`), used by the final ring sort. -/
def typeAlphaIdx : RingType → ℕ
  | .cycle => 0
  | .shellNet => 1
  | .smurfing => 2

structure Cand where
  members : List AccountId
  ptype : RingType
  risk : ℚ
  conf : ℚ
  core : Option AccountId
deriving DecidableEq

structure Ring where
  ringId : String
  members : List AccountId
  ptype : RingType
  risk : ℚ
deriving DecidableEq

/-- Sort key `(-confidence, TYPE_PRIORITY)` of the arbitration pre-sort. -/
def candLe (a b : Cand) : Prop :=
  b.conf < a.conf ∨ (a.conf = b.conf ∧ typePrio a.ptype ≤ typePrio b.ptype)

instance : DecidableRel candLe := fun a b => by
  unfold candLe; infer_instance

/-- Sort key `(-risk_score, pattern_type)` of the final ring sort. -/
def ringLe (a b : Ring) : Prop :=
  b.risk < a.risk ∨ (a.risk = b.risk ∧ typeAlphaIdx a.ptype ≤ typeAlphaIdx b.ptype)

instance : DecidableRel ringLe := fun a b => by
  unfold ringLe; infer_instance

/-- `f"RING_{idx + 1:03d}"`. -/
def ringIdStr (n : ℕ) : String :=
  "RING_" ++ (if n < 10 then "00" else if n < 100 then "0" else "") ++ toString n

structure ArbState where
  rings : List Ring
  used : List AccountId
  ringIdxOf : AccountId → Option ℕ

/-- `ring_overlap_counts[idx] += 1`, insertion-ordered. -/
def bumpAssoc : List (ℕ × ℕ) → ℕ → List (ℕ × ℕ)
  | [], k => [(k, 1)]
  | (k', v) :: rest, k =>
      if k' = k then (k', v + 1) :: rest else (k', v) :: bumpAssoc rest k

def overlapCounts (ringIdxOf : AccountId → Option ℕ)
    (overlap : List AccountId) : List (ℕ × ℕ) :=
  overlap.foldl (fun acc node =>
    match ringIdxOf node with
    | some i => bumpAssoc acc i
    | none => acc) []

def argmaxGo : List (ℕ × ℕ) → ℕ → ℕ → ℕ
  | [], bk, _ => bk
  | (k, v) :: rest, bk, bv =>
      if bv < v then argmaxGo rest k v else argmaxGo rest bk bv

/-- `max(ring_overlap_counts, key=ring_overlap_counts.get)`: the first key
attaining the maximal count, in insertion order. -/
def argmaxFirst : List (ℕ × ℕ) → Option ℕ
  | [] => none
  | (k, v) :: rest => some (argmaxGo rest k v)

/-- The `new_nodes` of the merge branch: unclaimed members, capped by the
15-member budget for non-cycle targets. -/
def mergeNewNodes (cand : Cand) (target : Ring) : List AccountId :=
  let newNodes0 := (dedupFirst cand.members).filter (· ∉ target.members)
  if target.ptype ≠ RingType.cycle then
    (List.insertionSort (· ≤ ·) newNodes0).take (15 - target.members.length)
  else newNodes0

/-- The merge branch of the arbitration loop: fold the candidate's new
nodes into the ring holding the largest overlap slice. -/
def arbMerge (st : ArbState) (cand : Cand) (best : ℕ) (target : Ring) :
    ArbState :=
  let newNodes := mergeNewNodes cand target
  { rings := st.rings.set best
      { target with
        members := List.insertionSort (· ≤ ·) (target.members ++ newNodes),
        risk := max target.risk cand.risk },
    used := newNodes.foldl insertNew st.used,
    ringIdxOf := newNodes.foldl
      (fun f n => Function.update f n (some best)) st.ringIdxOf }

/-- The member list of a freshly accepted ring: sorted members, truncated
to 15 for non-cycle candidates. -/
def acceptMembers (cand : Cand) : List AccountId :=
  let ringMembers0 := List.insertionSort (· ≤ ·) (dedupFirst cand.members)
  if cand.ptype ≠ RingType.cycle ∧ 15 < ringMembers0.length then
    ringMembers0.take 15
  else ringMembers0

/-- The accept branch of the arbitration loop. -/
def arbAccept (st : ArbState) (cand : Cand) : ArbState :=
  if (acceptMembers cand).length < 3 then st
  else
    { rings := st.rings ++
        [⟨"", acceptMembers cand, cand.ptype, pyRound1 cand.risk⟩],
      used := (acceptMembers cand).foldl insertNew st.used,
      ringIdxOf := (acceptMembers cand).foldl
        (fun f n => Function.update f n (some st.rings.length)) st.ringIdxOf }

/-- One iteration of the arbitration loop. -/
def arbStep (st : ArbState) (cand : Cand) : ArbState :=
  let members := dedupFirst cand.members
  let overlap := members.filter (· ∈ st.used)
  let ratioQ : ℚ :=
    if members.isEmpty then 0
    else qDiv (overlap.length : ℚ) (members.length : ℚ)
  if mkRat 6 10 < ratioQ then
    match argmaxFirst (overlapCounts st.ringIdxOf overlap) with
    | none => st
    | some best =>
      match st.rings.get? best with
      | none => st
      | some target => arbMerge st cand best target
  else arbAccept st cand

/-- `_arbitrate_rings`: confidence-sorted loop, final `(-risk, type)` sort,
dense ring-id assignment. -/
def arbitrate (cands : List Cand) : List Ring :=
  match cands with
  | [] => []
  | _ =>
    let sorted := List.insertionSort candLe cands
    let st := sorted.foldl arbStep ⟨[], [], fun _ => none⟩
    let final := List.insertionSort ringLe st.rings
    final.enum.map (fun p => { p.2 with ringId := ringIdStr (p.1 + 1) })

/-- A cycle candidate (confidence 1.0) and a shell candidate (confidence
0.5) sharing account 1; the shell candidate's overlap ratio is 1/5 ≤ 0.6. -/
def c1cands : List Cand :=
  [⟨[1, 2, 3], RingType.cycle, 80, 1, none⟩,
   ⟨[1, 11, 12, 13, 14], RingType.shellNet, 60, mkRat 1 2, none⟩]

/-- C1: arbitration emits two rings BOTH containing account 1 — the second
candidate is accepted as a new ring with all of its members even though
account 1 was already claimed, contradicting the disjointness invariant
stated by the spec and by the source's own docstring. -/
theorem c1_member_in_two_rings :
    (arbitrate c1cands).map Ring.members = [[1, 2, 3], [1, 11, 12, 13, 14]] ∧
    (arbitrate c1cands).countP (fun r => 1 ∈ r.members) = 2 := by
  decide

/-! ## C7 — smurf candidate scoring (`_score_smurf_candidates`)

A candidate consists of the hub with the inbound window transactions and
the outbound transactions of the window + 24h buffer, as produced by
`_extract_smurf_candidates`. -/

structure STxn where
  ts : ℚ
  amt : ℚ
  peer : AccountId
deriving DecidableEq

structure SmurfCand where
  hub : AccountId
  inTx : List STxn
  outTx : List STxn
deriving DecidableEq

/-- `statistics.median`: sort; middle element for odd length, mean of the
two middle elements for even length. -/
def medianQ (l : List ℚ) : ℚ :=
  let s := List.insertionSort (· ≤ ·) l
  let n := s.length
  if n = 0 then 0
  else if n % 2 = 1 then s.getD (n / 2) 0
  else qDiv (qAdd (s.getD (n / 2 - 1) 0) (s.getD (n / 2) 0)) 2

def meanQ (l : List ℚ) : ℚ := qDiv (qSum l) (l.length : ℚ)

/-- Population variance `Σ(v − mean)² / n`. -/
def qVariance (l : List ℚ) : ℚ :=
  qDiv (qSum (l.map (fun v => qMul (qSub v (meanQ l)) (qSub v (meanQ l)))))
    (l.length : ℚ)

/-- `_coefficient_of_variation(vals) ≤ q`, expressed without the square
root: for a positive mean (the only case arising from non-negative
amounts and at least one positive), `√variance / mean ≤ q` iff
`variance ≤ q²·mean²`; fewer than 2 values or a zero mean give CV 0. -/
def cvLe (vals : List ℚ) (q : ℚ) : Bool :=
  if vals.length < 2 then decide (0 ≤ q)
  else if meanQ vals = 0 then decide (0 ≤ q)
  else if meanQ vals < 0 then true
  else decide (qVariance vals ≤ qMul (qMul q q) (qMul (meanQ vals) (meanQ vals)))

/-- Factor 1: retention `out/in` (0 when `in ≤ 0`, per the guard). -/
def flowScoreOf (inSum outSum : ℚ) : ℚ :=
  let retention := if 0 < inSum then qDiv outSum inSum else 0
  if mkRat 6 10 ≤ retention then 1
  else if mkRat 4 10 ≤ retention then mkRat 1 2
  else 0

/-- Factor 2: outbound concentration. -/
def concScoreOf (uniqueOut : ℕ) : ℚ :=
  if uniqueOut ≤ 3 then 1 else if uniqueOut ≤ 5 then mkRat 1 2 else 0

/-- Hold time of each inbound event: delay to the first outbound event at or
after it (skipped when none exists). -/
def holdTimesOf (inTx outTx : List STxn) : List ℚ :=
  inTx.filterMap (fun ie =>
    match outTx.find? (fun oe => ie.ts ≤ oe.ts) with
    | some oe => some (qSub oe.ts ie.ts)
    | none => none)

/-- Factor 3: median hold time (<24h → 1.0, <48h → 0.5, else 0; no matched
outbound → 0.3). -/
def holdScoreOf (inTx outTx : List STxn) : ℚ :=
  let hts := holdTimesOf inTx outTx
  if hts.isEmpty then mkRat 3 10
  else if medianQ hts < 86400 then 1
  else if medianQ hts < 172800 then mkRat 1 2
  else 0

/-- Factor 4: CV of the inbound amounts. -/
def cvScoreOf (vals : List ℚ) : ℚ :=
  if cvLe vals (mkRat 35 100) then 1
  else if cvLe vals (mkRat 1 2) then mkRat 1 2
  else 0

/-- Factor 5: ring size. -/
def sizeScoreOf (n : ℕ) : ℚ :=
  if 5 ≤ n then 1
  else if 4 ≤ n then mkRat 8 10
  else if 3 ≤ n then mkRat 4 10
  else 0

def dedupPeers (txs : List STxn) : List AccountId := dedupFirst (txs.map (·.peer))

/-- Ring members: `{hub if non-immune} ∪ (inbound − immune) ∪ (outbound −
immune)`; when more than 15, keep the hub, then the sorted inbound slice,
then the sorted outbound slice up to the cap; finally `sorted(...)`. -/
def smurfMembers (immune : List AccountId) (c : SmurfCand) : List AccountId :=
  let inbound := (dedupPeers c.inTx).filter (· ∉ immune)
  let outbound := (dedupPeers c.outTx).filter (· ∉ immune)
  let hubSet : List AccountId := if c.hub ∈ immune then [] else [c.hub]
  let allM := dedupFirst (hubSet ++ inbound ++ outbound)
  let capped :=
    if 15 < allM.length then
      let keep2 := ((List.insertionSort (· ≤ ·) inbound).take
        (15 - hubSet.length)).foldl insertNew hubSet
      ((List.insertionSort (· ≤ ·) outbound).take
        (15 - keep2.length)).foldl insertNew keep2
    else allM
  List.insertionSort (· ≤ ·) capped

/-- The combined sub-score (five factors, each 0.0/0.5/1.0 except hold's
0.3 fallback and size's 0.4/0.8 tiers). -/
def smurfCombined (immune : List AccountId) (c : SmurfCand) : ℚ :=
  qAdd (qAdd (qAdd (qAdd
    (flowScoreOf (qSum (c.inTx.map (·.amt))) (qSum (c.outTx.map (·.amt))))
    (concScoreOf (dedupPeers c.outTx).length))
    (holdScoreOf c.inTx c.outTx))
    (cvScoreOf (c.inTx.map (·.amt))))
    (sizeScoreOf (smurfMembers immune c).length)

/-- Scoring of one smurf candidate: the sequential guards of
`_score_smurf_candidates` (dedup handled at list level below). -/
def smurfRing (G : Graph) (immune : List AccountId) (c : SmurfCand) :
    Option Cand :=
  if c.inTx.isEmpty then none
  else if qSum (c.inTx.map (·.amt)) ≤ 0 then none
  else if smurfCombined immune c < 4 then none
  else if (smurfMembers immune c).length < 4 then none
  else
    let members := smurfMembers immune c
    let combined := smurfCombined immune c
    let conf0 := qAdd (mkRat 7 10)
      (qMul (qDiv (qSub combined 4) 5) (mkRat 2 10))
    let conf1 :=
      if 0 < internalCount G members ∧
          externalCount G members ≤ internalCount G members then
        qAdd conf0 (mkRat 5 100)
      else conf0
    let conf2 := if 15 < members.length then qSub conf1 (mkRat 1 10) else conf1
    let conf3 := qSub conf2 (qMul (members.length : ℚ) (mkRat 5 1000))
    let risk := min 100 (qAdd (qAdd 40 (qMul (qDiv combined 5) 40))
      (qMul (members.length : ℚ) 2))
    some ⟨members, RingType.smurfing, pyRound1 risk,
      max (mkRat 1 10) (min 1 conf3), some c.hub⟩

/-- One iteration of the candidate loop: emit the scored ring unless its
sorted member tuple was already seen (`seen_ring_keys`). -/
def smurfFold (G : Graph) (immune : List AccountId)
    (acc : List Cand × List (List AccountId)) (c : SmurfCand) :
    List Cand × List (List AccountId) :=
  match smurfRing G immune c with
  | none => acc
  | some r =>
      if r.members ∈ acc.2 then acc
      else (acc.1 ++ [r], acc.2 ++ [r.members])

/-- The candidate loop with `seen_ring_keys` dedup by member tuple. -/
def scoreSmurfCands (G : Graph) (immune : List AccountId)
    (cands : List SmurfCand) : List Cand :=
  (cands.foldl (smurfFold G immune)
    (([], []) : List Cand × List (List AccountId))).1

theorem smurfFold_invariant (G : Graph) (immune : List AccountId)
    (cands : List SmurfCand) :
    ∀ acc : List Cand × List (List AccountId),
      acc.1.map Cand.members = acc.2 → acc.2.Nodup →
      (cands.foldl (smurfFold G immune) acc).1.map Cand.members =
        (cands.foldl (smurfFold G immune) acc).2 ∧
      (cands.foldl (smurfFold G immune) acc).2.Nodup := by
  induction cands with
  | nil => exact fun acc h1 h2 => ⟨h1, h2⟩
  | cons d t ih =>
    intro acc h1 h2
    rw [List.foldl_cons]
    rcases hd : smurfRing G immune d with _ | r
    · rw [show smurfFold G immune acc d = acc from by rw [smurfFold, hd]]
      exact ih acc h1 h2
    · by_cases hmem : r.members ∈ acc.2
      · rw [show smurfFold G immune acc d = acc from by
          rw [smurfFold, hd]; simp [hmem]]
        exact ih acc h1 h2
      · rw [show smurfFold G immune acc d = (acc.1 ++ [r], acc.2 ++ [r.members])
          from by rw [smurfFold, hd]; simp [hmem]]
        refine ih _ ?_ ?_
        · simp [h1]
        · rw [List.nodup_append]
          exact ⟨h2, List.nodup_singleton _,
            by simpa [List.disjoint_left] using fun hx => hmem hx⟩

theorem mem_insertNew {l : List AccountId} {a x : AccountId} :
    x ∈ insertNew l a ↔ x ∈ l ∨ x = a := by
  unfold insertNew
  split
  · rename_i h
    constructor
    · exact Or.inl
    · rintro (hx | rfl)
      · exact hx
      · exact h
  · simp

theorem mem_foldl_insertNew (l : List AccountId) :
    ∀ (acc : List AccountId) (x : AccountId),
      x ∈ l.foldl insertNew acc ↔ x ∈ acc ∨ x ∈ l := by
  induction l with
  | nil => simp
  | cons a t ih =>
    intro acc x
    rw [List.foldl_cons, ih, mem_insertNew]
    simp only [List.mem_cons]
    tauto

theorem mem_dedupFirst {l : List AccountId} {x : AccountId} :
    x ∈ dedupFirst l ↔ x ∈ l := by
  rw [dedupFirst, mem_foldl_insertNew]
  simp

theorem mem_insertionSortLe {l : List AccountId} {x : AccountId} :
    x ∈ List.insertionSort (· ≤ ·) l ↔ x ∈ l :=
  (List.perm_insertionSort (· ≤ ·) l).mem_iff

theorem length_insertNew (l : List AccountId) (a : AccountId) :
    (insertNew l a).length ≤ l.length + 1 := by
  unfold insertNew
  split
  · exact Nat.le_succ _
  · simp

theorem length_foldl_insertNew (l : List AccountId) :
    ∀ acc : List AccountId,
      (l.foldl insertNew acc).length ≤ acc.length + l.length := by
  induction l with
  | nil => simp
  | cons a t ih =>
    intro acc
    rw [List.foldl_cons]
    calc (t.foldl insertNew (insertNew acc a)).length
        ≤ (insertNew acc a).length + t.length := ih _
      _ ≤ (acc.length + 1) + t.length :=
          Nat.add_le_add_right (length_insertNew acc a) _
      _ = acc.length + (a :: t).length := by simp [Nat.add_comm, Nat.add_assoc,
          Nat.add_left_comm]

theorem smurfMembers_le_15 (immune : List AccountId) (c : SmurfCand) :
    (smurfMembers immune c).length ≤ 15 ∨
      ¬ 15 < (dedupFirst ((if c.hub ∈ immune then [] else [c.hub]) ++
        ((dedupPeers c.inTx).filter (· ∉ immune) ++
          (dedupPeers c.outTx).filter (· ∉ immune)))).length := by
  by_cases hc : 15 < (dedupFirst ((if c.hub ∈ immune then [] else [c.hub]) ++
      ((dedupPeers c.inTx).filter (· ∉ immune) ++
        (dedupPeers c.outTx).filter (· ∉ immune)))).length
  · left
    unfold smurfMembers
    rw [(List.perm_insertionSort (· ≤ ·) _).length_eq]
    simp only [List.append_assoc, if_pos hc]
    set hubSet : List AccountId := if c.hub ∈ immune then [] else [c.hub] with hh
    have hhub : hubSet.length ≤ 1 := by
      rw [hh]; split <;> simp
    set keep2 := ((List.insertionSort (· ≤ ·)
      ((dedupPeers c.inTx).filter (· ∉ immune))).take
        (15 - hubSet.length)).foldl insertNew hubSet with hk2
    have h2 : keep2.length ≤ 15 := by
      calc keep2.length
          ≤ hubSet.length + ((List.insertionSort (· ≤ ·)
              ((dedupPeers c.inTx).filter (· ∉ immune))).take
                (15 - hubSet.length)).length := length_foldl_insertNew _ _
        _ ≤ hubSet.length + (15 - hubSet.length) :=
            Nat.add_le_add_left (List.length_take_le _ _) _
        _ ≤ 15 := by omega
    calc (((List.insertionSort (· ≤ ·)
          ((dedupPeers c.outTx).filter (· ∉ immune))).take
            (15 - keep2.length)).foldl insertNew keep2).length
        ≤ keep2.length + ((List.insertionSort (· ≤ ·)
            ((dedupPeers c.outTx).filter (· ∉ immune))).take
              (15 - keep2.length)).length := length_foldl_insertNew _ _
      _ ≤ keep2.length + (15 - keep2.length) :=
          Nat.add_le_add_left (List.length_take_le _ _) _
      _ ≤ 15 := by omega
  · exact Or.inr hc

/-- C7 (amended): a smurf candidate is emitted as a candidate ring iff its
window is non-empty, its inbound amounts sum to a POSITIVE value, its
combined sub-score is at least 4.0 and its final member count (after immune
exclusion and capping) is at least 4; the emitted ring carries exactly the
capped member set, always of size at most 15, which below the cap is
`{hub if non-immune} ∪ (inbound peers − immune) ∪ (outbound peers −
immune)`; rings with a repeated sorted member tuple are emitted only once. -/
theorem c7_smurf_acceptance (G : Graph) (immune : List AccountId)
    (c : SmurfCand) :
    ((smurfRing G immune c).isSome = true ↔
      (c.inTx.isEmpty = false ∧ 0 < qSum (c.inTx.map (·.amt)) ∧
       4 ≤ smurfCombined immune c ∧ 4 ≤ (smurfMembers immune c).length)) ∧
    (∀ r, smurfRing G immune c = some r →
      r.members = smurfMembers immune c ∧ r.ptype = RingType.smurfing ∧
      r.core = some c.hub) ∧
    ((smurfMembers immune c).length ≤ 15) ∧
    (¬ 15 < (dedupFirst ((if c.hub ∈ immune then [] else [c.hub]) ++
        ((dedupPeers c.inTx).filter (· ∉ immune) ++
          (dedupPeers c.outTx).filter (· ∉ immune)))).length →
      ∀ x, x ∈ smurfMembers immune c ↔
        ((x = c.hub ∧ c.hub ∉ immune) ∨
         (x ∈ dedupPeers c.inTx ∧ x ∉ immune) ∨
         (x ∈ dedupPeers c.outTx ∧ x ∉ immune))) ∧
    (∀ cands : List SmurfCand,
      ((scoreSmurfCands G immune cands).map Cand.members).Nodup) := by
  refine ⟨?_, ?_, ?_, ?_, ?_⟩
  · show (smurfRing G immune c).isSome = true ↔ _
    unfold smurfRing
    by_cases h1 : c.inTx.isEmpty
    · rw [if_pos h1]
      simp [h1]
    · rw [if_neg h1]
      by_cases h2 : qSum (c.inTx.map (·.amt)) ≤ 0
      · rw [if_pos h2]
        simp only [Option.isSome_none, Bool.false_eq_true, false_iff]
        rintro ⟨-, hpos, -⟩
        exact absurd hpos (not_lt.2 h2)
      · rw [if_neg h2]
        by_cases h3 : smurfCombined immune c < 4
        · rw [if_pos h3]
          simp only [Option.isSome_none, Bool.false_eq_true, false_iff]
          rintro ⟨-, -, hc4, -⟩
          exact absurd hc4 (not_le.2 h3)
        · rw [if_neg h3]
          by_cases h4 : (smurfMembers immune c).length < 4
          · rw [if_pos h4]
            simp only [Option.isSome_none, Bool.false_eq_true, false_iff]
            rintro ⟨-, -, -, hm⟩
            exact absurd hm (not_le.2 h4)
          · rw [if_neg h4]
            simp only [Option.isSome_some, true_iff]
            exact ⟨by simpa using h1, not_le.1 h2, not_lt.1 h3, not_lt.1 h4⟩
  · intro r hr
    unfold smurfRing at hr
    split at hr
    · exact absurd hr (by simp)
    · split at hr
      · exact absurd hr (by simp)
      · split at hr
        · exact absurd hr (by simp)
        · split at hr
          · exact absurd hr (by simp)
          · rw [← Option.some_inj.1 hr]
            exact ⟨rfl, rfl, rfl⟩
  · rcases smurfMembers_le_15 immune c with h | h
    · exact h
    · unfold smurfMembers
      rw [(List.perm_insertionSort (· ≤ ·) _).length_eq]
      simp only [List.append_assoc, if_neg h]
      omega
  · intro h x
    unfold smurfMembers
    rw [mem_insertionSortLe]
    simp only [List.append_assoc, if_neg h]
    rw [mem_dedupFirst]
    simp only [List.mem_append, List.mem_filter]
    constructor
    · rintro (hh | hin | hout)
      · left
        by_cases hi : c.hub ∈ immune
        · simp [hi] at hh
        · simp [hi] at hh
          exact ⟨hh, hi⟩
      · right; left
        exact ⟨hin.1, by simpa using hin.2⟩
      · right; right
        exact ⟨hout.1, by simpa using hout.2⟩
    · rintro (⟨rfl, hi⟩ | ⟨hin, hi⟩ | ⟨hout, hi⟩)
      · left; simp [hi]
      · right; left
        exact ⟨hin, by simpa using hi⟩
      · right; right
        exact ⟨hout, by simpa using hi⟩
  · intro cands
    have h := smurfFold_invariant G immune cands ([], []) rfl List.nodup_nil
    rw [scoreSmurfCands, h.1]
    exact h.2

/-- A smurf candidate whose five inbound transfers all have amount 0: the
combined sub-score is 4.0 and the ring has 7 members, yet the source skips
it at `incoming_sum <= 0`. -/
def c7zero : SmurfCand :=
  { hub := 10,
    inTx := [⟨0, 0, 1⟩, ⟨1, 0, 2⟩, ⟨2, 0, 3⟩, ⟨3, 0, 4⟩, ⟨4, 0, 5⟩],
    outTx := [⟨5, 0, 6⟩] }

/-- C7 counterexample: combined sub-score exactly 4.0 and final member count
7 ≥ 4, but no candidate ring is emitted, because the inbound sum is 0. -/
theorem c7_zero_sum_counterexample :
    smurfCombined [] c7zero = 4 ∧
    (smurfMembers [] c7zero).length = 7 ∧
    smurfRing [] [] c7zero = none := by decide

/-- The same candidate with positive amounts, accepted. -/
def c7pos : SmurfCand :=
  { hub := 10,
    inTx := [⟨0, 100, 1⟩, ⟨1, 100, 2⟩, ⟨2, 100, 3⟩, ⟨3, 100, 4⟩, ⟨4, 100, 5⟩],
    outTx := [⟨5, 100, 6⟩] }

/-- Witness for C7 (amended) on a rejected zero-sum candidate and an
accepted positive candidate. -/
theorem c7_smurf_acceptance_witness :
    (smurfRing [] [] c7pos).isSome = true ∧
    (smurfRing [] [] c7zero).isSome = false ∧
    (∀ x, x ∈ smurfMembers [] c7pos ↔
      ((x = c7pos.hub ∧ c7pos.hub ∉ ([] : List AccountId)) ∨
       (x ∈ dedupPeers c7pos.inTx ∧ x ∉ ([] : List AccountId)) ∨
       (x ∈ dedupPeers c7pos.outTx ∧ x ∉ ([] : List AccountId)))) ∧
    ((scoreSmurfCands [] [] [c7pos, c7pos]).map Cand.members).Nodup := by
  refine ⟨(c7_smurf_acceptance [] [] c7pos).1.mpr
      ⟨by decide, by decide, by decide, by decide⟩, ?_, ?_, ?_⟩
  · have h := (c7_smurf_acceptance [] [] c7zero).1
    by_contra hc
    have : (smurfRing [] [] c7zero).isSome = true := by
      revert hc
      cases (smurfRing [] [] c7zero).isSome <;> simp
    exact absurd (h.mp this).2.1 (by decide)
  · exact (c7_smurf_acceptance [] [] c7pos).2.2.2.1 (by decide)
  · exact (c7_smurf_acceptance [] [] c7pos).2.2.2.2 [c7pos, c7pos]

/-! ## C8 — ingest (`load_data`)

The tabular input is a column list plus rows; `pd.to_numeric(...,
errors="coerce")` / `pd.to_datetime(..., errors="coerce")` followed by
`dropna` are modelled by `Option`-valued coercion results per row: `none`
marks a value whose coercion fails (NaN/NaT), and such rows are dropped. -/

def requiredColumns : List String :=
  ["transaction_id", "sender_id", "receiver_id", "amount", "timestamp"]

structure RawRow where
  txid : ℕ
  sender : AccountId
  receiver : AccountId
  amountRaw : Option ℚ
  tsRaw : Option ℚ
deriving DecidableEq

structure Table where
  cols : List String
  rows : List RawRow
deriving DecidableEq

/-- A row survives coercion iff both its amount and its timestamp parse. -/
def rowEdge (r : RawRow) : Option Edge :=
  match r.amountRaw, r.tsRaw with
  | some a, some t => some ⟨r.sender, r.receiver, a, t⟩
  | _, _ => none

def tsLe (a b : Edge) : Prop := a.ts ≤ b.ts

instance : DecidableRel tsLe := fun a b => by
  unfold tsLe; infer_instance

/-- `load_data`: check the required columns before touching any state, then
coerce, drop failed rows, and sort by timestamp.  The error carries the
missing-column list and no analysis state. -/
def loadData (t : Table) : Except (List String) (List Edge) :=
  let missing := requiredColumns.filter (· ∉ t.cols)
  if missing.isEmpty then
    Except.ok (List.insertionSort tsLe (t.rows.filterMap rowEdge))
  else Except.error missing

theorem length_filterMap_rowEdge (rows : List RawRow) :
    (rows.filterMap rowEdge).length =
      (rows.filter (fun r => (rowEdge r).isSome)).length := by
  induction rows with
  | nil => rfl
  | cons r t ih =>
    rcases h : rowEdge r with _ | e
    · simp [List.filterMap_cons, List.filter_cons, h, ih]
    · simp [List.filterMap_cons, List.filter_cons, h, ih]

/-- C8: `load_data` succeeds iff every required column is present (a missing
column raises before any state is built — the error value carries nothing
but the missing columns); on success the retained edges are exactly the
rows whose amount and timestamp both coerce, sorted by timestamp, and rows
failing coercion are silently dropped (the output length counts exactly the
surviving rows). -/
theorem c8_ingest (t : Table) :
    ((loadData t).isOk = true ↔ ∀ c ∈ requiredColumns, c ∈ t.cols) ∧
    (∀ msg, loadData t = .error msg →
      msg = requiredColumns.filter (· ∉ t.cols) ∧ msg ≠ []) ∧
    (∀ es, loadData t = .ok es →
      es = List.insertionSort tsLe (t.rows.filterMap rowEdge) ∧
      es.length = (t.rows.filter (fun r => (rowEdge r).isSome)).length) := by
  have hiff : (requiredColumns.filter (· ∉ t.cols)).isEmpty = true ↔
      ∀ c ∈ requiredColumns, c ∈ t.cols := by
    rw [List.isEmpty_iff, List.filter_eq_nil_iff]
    constructor
    · intro h c hc
      by_contra hmem
      exact absurd (by simpa using hmem) (by simpa using h c hc)
    · intro h c hc
      simp [h c hc]
  refine ⟨?_, ?_, ?_⟩
  · unfold loadData
    by_cases h : (requiredColumns.filter (· ∉ t.cols)).isEmpty
    · rw [if_pos h]
      exact ⟨fun _ => hiff.1 h, fun _ => rfl⟩
    · rw [if_neg h]
      constructor
      · intro hk
        exact absurd hk (by simp [Except.isOk, Except.toBool])
      · intro hcols
        exact absurd (hiff.2 hcols) h
  · intro msg hmsg
    unfold loadData at hmsg
    by_cases h : (requiredColumns.filter (· ∉ t.cols)).isEmpty
    · rw [if_pos h] at hmsg
      exact absurd hmsg (by simp)
    · rw [if_neg h] at hmsg
      have : msg = requiredColumns.filter (· ∉ t.cols) :=
        (Except.error.inj hmsg).symm
      refine ⟨this, ?_⟩
      rw [this]
      intro hnil
      exact h (by rw [List.isEmpty_iff]; exact hnil)
  · intro es hes
    unfold loadData at hes
    by_cases h : (requiredColumns.filter (· ∉ t.cols)).isEmpty
    · rw [if_pos h] at hes
      have he : es = List.insertionSort tsLe (t.rows.filterMap rowEdge) :=
        (Except.ok.inj hes).symm
      refine ⟨he, ?_⟩
      rw [he, (List.perm_insertionSort tsLe _).length_eq,
        length_filterMap_rowEdge]
    · rw [if_neg h] at hes
      exact absurd hes (by simp)

/-- A table missing the `amount` column. -/
def c8bad : Table :=
  { cols := ["transaction_id", "sender_id", "receiver_id", "timestamp"],
    rows := [] }

/-- A complete table with one well-formed row and one row whose timestamp
fails coercion. -/
def c8good : Table :=
  { cols := requiredColumns,
    rows := [⟨1, 1, 2, some 100, some 5⟩, ⟨2, 3, 4, some 50, none⟩] }

/-- Witness for C8: the malformed table errors with exactly the missing
column, the complete table succeeds with the bad row dropped. -/
theorem c8_ingest_witness :
    ((loadData c8bad).isOk = true ↔ ∀ c ∈ requiredColumns, c ∈ c8bad.cols) ∧
    (["amount"] = requiredColumns.filter (· ∉ c8bad.cols) ∧
      ["amount"] ≠ ([] : List String)) ∧
    ([⟨1, 2, 100, 5⟩] : List Edge).length =
      (c8good.rows.filter (fun r => (rowEdge r).isSome)).length :=
  ⟨(c8_ingest c8bad).1,
   (c8_ingest c8bad).2.1 ["amount"] rfl,
   ((c8_ingest c8good).2.2 [⟨1, 2, 100, 5⟩] rfl).2⟩

/-! ## C9/C10 — output generation (`generate_json`) -/

structure SuspEntry where
  account : AccountId
  score : ℚ
  pats : List Pat
  ringName : String
deriving DecidableEq

/-- `account_rings`: per-account ring-id lists accumulated in final ring
order. -/
def accountRingIds (rings : List Ring) (acc : AccountId) : List String :=
  rings.foldl (fun l r => if acc ∈ r.members then l ++ [r.ringId] else l) []

/-- Sort key `(-suspicion_score, account_id)` of `suspicious_accounts`. -/
def entryLe (a b : SuspEntry) : Prop :=
  b.score < a.score ∨ (a.score = b.score ∧ a.account ≤ b.account)

instance : DecidableRel entryLe := fun a b => by
  unfold entryLe; infer_instance

instance : IsTotal SuspEntry entryLe :=
  ⟨fun a b => by
    unfold entryLe
    rcases lt_trichotomy a.score b.score with h | h | h
    · exact Or.inr (Or.inl h)
    · rcases le_total a.account b.account with ha | ha
      · exact Or.inl (Or.inr ⟨h, ha⟩)
      · exact Or.inr (Or.inr ⟨h.symm, ha⟩)
    · exact Or.inl (Or.inl h)⟩

instance : IsTrans SuspEntry entryLe :=
  ⟨fun a b c hab hbc => by
    unfold entryLe at *
    rcases hab with h1 | ⟨h1, h1'⟩
    · rcases hbc with h2 | ⟨h2, h2'⟩
      · exact Or.inl (h2.trans h1)
      · exact Or.inl (h2 ▸ h1)
    · rcases hbc with h2 | ⟨h2, h2'⟩
      · exact Or.inl (by rw [h1]; exact h2)
      · exact Or.inr ⟨h1.trans h2, h1'.trans h2'⟩⟩

/-- `generate_json`: keep accounts with positive stored score, attach the
sorted pattern list and the first containing ring's id (or `"NONE"`), and
sort by `(-score, account_id)`.  (The human-readable explanation string is
not modelled; no stated property concerns it.) -/
def generateJson (rings : List Ring) (scores : List (AccountId × ℚ))
    (patOf : AccountId → Finset Pat) : List SuspEntry :=
  let entries := (scores.filter (fun p => !(p.2 ≤ 0))).map (fun p =>
    { account := p.1, score := p.2, pats := sortedPats (patOf p.1),
      ringName := (accountRingIds rings p.1).headD "NONE" })
  List.insertionSort entryLe entries

theorem finalGate_cases (s : ℚ) : finalGate s = 0 ∨ 25 ≤ finalGate s := by
  unfold finalGate
  by_cases h : pyRound1 (max 0 (min 100 s)) < 25
  · exact Or.inl (by rw [if_pos h])
  · exact Or.inr (by rw [if_neg h]; exact not_lt.1 h)

theorem sortedPats_sorted (s : Finset Pat) : (sortedPats s).Sorted (· ≤ ·) := by
  have h : allPats.Sorted (· ≤ ·) := by decide
  exact h.filter _

theorem sortedPats_nodup (s : Finset Pat) : (sortedPats s).Nodup := by
  have h : allPats.Nodup := by decide
  exact h.filter _

/-- C9: every emitted suspicious-account entry carries a stored score of at
least 25 and an ascending, duplicate-free pattern list, and the array is
sorted by `(-score, account_id)` — for any graph, pattern state, velocity /
hub / immunity sets, any anomaly-bonus function and any ring list. -/
theorem c9_output_invariants (G : Graph) (nodes : List AccountId)
    (patOf : AccountId → Finset Pat) (vel vel24 hubs immune : List AccountId)
    (bonus : AccountId → ℚ) (rings : List Ring) :
    (∀ e ∈ generateJson rings
        (calcScores G nodes patOf vel vel24 hubs immune bonus).2
        (calcScores G nodes patOf vel vel24 hubs immune bonus).1,
      25 ≤ e.score ∧ e.pats.Sorted (· ≤ ·) ∧ e.pats.Nodup) ∧
    (generateJson rings
        (calcScores G nodes patOf vel vel24 hubs immune bonus).2
        (calcScores G nodes patOf vel vel24 hubs immune bonus).1).Sorted
      entryLe := by
  constructor
  · intro e he
    rw [generateJson] at he
    have he' := (List.perm_insertionSort entryLe _).mem_iff.1 he
    rcases List.mem_map.1 he' with ⟨p, hp, rfl⟩
    have hppos : ¬ p.2 ≤ 0 := by
      have := (List.mem_filter.1 hp).2
      simpa using this
    have hpmem := (List.mem_filter.1 hp).1
    simp only [calcScores] at hpmem
    rcases List.mem_map.1 hpmem with ⟨n, _, hpn⟩
    refine ⟨?_, sortedPats_sorted _, sortedPats_nodup _⟩
    show (25 : ℚ) ≤ p.2
    have hval : p.2 = finalGate (suppressNode immune hubs
        ((isoPass (undirNbrs G) nodes
          (prelimOf nodes patOf vel vel24 bonus) patOf).2 n) n
        ((isoPass (undirNbrs G) nodes
          (prelimOf nodes patOf vel vel24 bonus) patOf).1 n)) := by
      rw [← hpn]
    rcases finalGate_cases (suppressNode immune hubs
        ((isoPass (undirNbrs G) nodes
          (prelimOf nodes patOf vel vel24 bonus) patOf).2 n) n
        ((isoPass (undirNbrs G) nodes
          (prelimOf nodes patOf vel vel24 bonus) patOf).1 n)) with h0 | h25
    · exact absurd (le_of_eq (hval.trans h0)) hppos
    · rw [hval]
      exact h25
  · rw [generateJson]
    exact List.sorted_insertionSort entryLe _

/-- Witness for C9: a single cycle-labelled account scored end-to-end. -/
theorem c9_output_invariants_witness :
    (25 ≤ (⟨1, 30, [Pat.cycle3], "NONE"⟩ : SuspEntry).score ∧
      (⟨1, 30, [Pat.cycle3], "NONE"⟩ : SuspEntry).pats.Sorted (· ≤ ·) ∧
      (⟨1, 30, [Pat.cycle3], "NONE"⟩ : SuspEntry).pats.Nodup) ∧
    (generateJson []
        (calcScores [] [1] (fun _ => {Pat.cycle3}) [] [] [] [] (fun _ => 0)).2
        (calcScores [] [1] (fun _ => {Pat.cycle3}) [] [] [] [] (fun _ => 0)).1).Sorted
      entryLe :=
  ⟨(c9_output_invariants [] [1] (fun _ => {Pat.cycle3}) [] [] [] []
      (fun _ => 0) []).1 _ (by decide),
   (c9_output_invariants [] [1] (fun _ => {Pat.cycle3}) [] [] [] []
      (fun _ => 0) []).2⟩

theorem accountRingIds_aux (acc : AccountId) (rings : List Ring) :
    ∀ init : List String,
      rings.foldl (fun l r => if acc ∈ r.members then l ++ [r.ringId] else l)
        init =
      init ++ (rings.filter (fun r => acc ∈ r.members)).map Ring.ringId := by
  induction rings with
  | nil => simp
  | cons r t ih =>
    intro init
    rw [List.foldl_cons, List.filter_cons]
    by_cases h : acc ∈ r.members
    · rw [if_pos h, ih, if_pos (by simpa using h)]
      simp
    · rw [if_neg h, ih, if_neg (by simpa using h)]

theorem filter_head_eq_find {α : Type} (p : α → Bool) (l : List α) :
    (l.filter p).head? = l.find? p := by
  induction l with
  | nil => rfl
  | cons a t ih =>
    by_cases h : p a
    · simp [List.filter_cons, List.find?_cons, h]
    · simp only [List.filter_cons, List.find?_cons, h, Bool.false_eq_true,
        if_neg]
      rw [if_neg (by simp [h]), ih]

/-- C10: for every emitted suspicious account, the reported ring id is the
id of the FIRST final ring containing the account (in `fraud_rings` order),
and `"NONE"` when no ring contains it. -/
theorem c10_ring_id_first_match (rings : List Ring)
    (scores : List (AccountId × ℚ)) (patOf : AccountId → Finset Pat) :
    ∀ e ∈ generateJson rings scores patOf,
      e.ringName =
        ((rings.find? (fun r => e.account ∈ r.members)).map Ring.ringId).getD
          "NONE" := by
  intro e he
  rw [generateJson] at he
  have he' := (List.perm_insertionSort entryLe _).mem_iff.1 he
  rcases List.mem_map.1 he' with ⟨p, _, rfl⟩
  show (accountRingIds rings p.1).headD "NONE" = _
  rw [accountRingIds, accountRingIds_aux p.1 rings [], List.nil_append,
    List.headD_eq_head?_getD, List.head?_map, filter_head_eq_find]

/-- Two rings both containing account 1 (reachable per C1); only the first
ring's id is reported. -/
def c10rings : List Ring :=
  [⟨"RING_001", [1, 2, 3], RingType.cycle, 80⟩,
   ⟨"RING_002", [1, 4, 5], RingType.smurfing, 60⟩]

/-- Witness for C10: the account in both rings reports `RING_001`. -/
theorem c10_ring_id_first_match_witness :
    (⟨1, 30, [], "RING_001"⟩ : SuspEntry).ringName =
      ((c10rings.find? (fun r =>
          (⟨1, 30, [], "RING_001"⟩ : SuspEntry).account ∈ r.members)).map
        Ring.ringId).getD "NONE" :=
  c10_ring_id_first_match c10rings [(1, 30)] (fun _ => ∅) _ (by decide)

/-! ## C2 — merchant immunity vs. validated 3-cycle

The stages the claim spans: `_detect_business_immunity`, `detect_cycles`
(degree filter, bounded DFS, edge validation, union-find merge, ring build
and `cycle_length_*` tagging), the stage-1.5 immune cleanup of `run_all`,
ring consolidation/arbitration, and the suppression stage of
`calculate_suspicion_scores`.

The two adaptive thresholds of `detect_cycles` involve a population
standard deviation (an irrational square root), so they enter as the
parameters `maxCycDeg = max(20, ⌊median + 2σ⌋)` and
`extLimit = max(2, ⌊median + 1.5σ⌋)`; the concrete run instantiates them
with the values the engine computes on that dataset. -/

def natMin : List ℕ → ℕ
  | [] => 0
  | a :: rest => rest.foldl min a

/-- `_detect_business_immunity`, per node: payroll first, else merchant. -/
def immunityOf (G : Graph) (n : AccountId) : Option Pat :=
  let inT := inEdges G n
  let outT := outEdges G n
  let inSum := qSum (inT.map (·.amount))
  let outSum := qSum (outT.map (·.amount))
  let senders := dedupFirst (inT.map (·.src))
  let payrollHit :=
    4 ≤ inT.length ∧ 0 < inSum ∧
    mkRat 7 10 < qDiv (qMax (senders.map (fun p =>
      qSum ((inT.filter (fun e => e.src = p)).map (·.amount))))) inSum ∧
    (outT.length ≤ 3 ∨ (0 < inSum ∧ qDiv outSum inSum < mkRat 1 10))
  if payrollHit then some Pat.payroll
  else if 10 ≤ senders.length ∧
      (outT.length ≤ 2 ∨ (0 < inSum ∧ qDiv outSum inSum < mkRat 5 100)) then
    some Pat.merchant
  else none

def detectImmunity (G : Graph) : List (AccountId × Pat) :=
  (nodesOf G).filterMap (fun n => (immunityOf G n).map (fun p => (n, p)))

/-- Pipeline state threaded through the stages (`account_patterns`,
`_immune_accounts`, `_candidate_rings`). -/
structure PState where
  pats : AccountId → Finset Pat
  immune : List AccountId
  cands : List Cand

/-- Stage 0 of `run_all`: business immunity (before all detection). -/
def stage0 (G : Graph) : PState :=
  let imm := detectImmunity G
  { pats := imm.foldl (fun f p => Function.update f p.1 (insert p.2 (f p.1)))
      (fun _ => ∅),
    immune := imm.map (·.1),
    cands := [] }

/-- Degree-filtered, lexicographically sorted simple-edge adjacency. -/
def cycleAdj (G : Graph) (elig : List AccountId) (u : AccountId) :
    List AccountId :=
  List.insertionSort (· ≤ ·) (dedupFirst ((G.filter (fun e =>
    e.src = u ∧ e.src ∈ elig ∧ e.dst ∈ elig ∧ e.src ≠ e.dst)).map (·.dst)))

/-- `_canonicalize_cycle`: rotate so the minimal node comes first. -/
def canonicalRot (path : List AccountId) : List AccountId :=
  match path with
  | [] => []
  | a :: rest =>
      let m := rest.foldl min a
      let i := (a :: rest).indexOf m
      (a :: rest).drop i ++ (a :: rest).take i

/-- The recursive edge selection of `_validate_cycle_edges`: first edge
combination (hop lists in timestamp order) satisfying all constraints. -/
def chooseEdges (G : Graph) (extLimit : ℕ) (path : List AccountId) :
    List (List Edge) → List Edge → Option CycleResult
  | [], chosen => checkCycleConstraints G extLimit path chosen
  | l :: rest, chosen =>
      l.findSome? (fun e => chooseEdges G extLimit path rest (chosen ++ [e]))

def hopEdgeLists (G : Graph) (path : List AccountId) : List (List Edge) :=
  (path.zip (path.rotate 1)).map (fun uv =>
    List.insertionSort tsLe (edgesBetween G uv.1 uv.2))

/-- `_validate_cycle_edges`. -/
def validateCycleEdges (G : Graph) (extLimit : ℕ) (path : List AccountId) :
    Option CycleResult :=
  let lists := hopEdgeLists G path
  if lists.any (·.isEmpty) then none
  else chooseEdges G extLimit path lists []

structure CycAcc where
  found : List CycleResult
  seen : List (List AccountId)

/-- One DFS stack machine of `detect_cycles`; the fuel is the per-start
`MAX_OPS_PER_NODE` budget (the source loop breaks after 5000 pops, so a fuel
of 5000 is exact, not an approximation). -/
def dfsLoop (adjF : AccountId → List AccountId)
    (validate : List AccountId → Option CycleResult) (start : AccountId) :
    ℕ → List (AccountId × List AccountId × List AccountId) → CycAcc → CycAcc
  | _, [], acc => acc
  | 0, _ :: _, acc => acc
  | fuel + 1, (cur, path, visited) :: stack, acc =>
      if 5 < path.length then dfsLoop adjF validate start fuel stack acc
      else
        let step := (adjF cur).foldl
          (fun (st : CycAcc ×
              List (AccountId × List AccountId × List AccountId)) nb =>
            if nb = start ∧ 3 ≤ path.length then
              let canon := canonicalRot path
              if canon ∈ st.1.seen then st
              else
                match validate path with
                | some res =>
                    ({ found := st.1.found ++ [res],
                       seen := st.1.seen ++ [canon] }, st.2)
                | none => st
            else if nb ∈ visited then st
            else if 5 ≤ path.length then st
            else (st.1, (nb, path ++ [nb], visited ++ [nb]) :: st.2))
          (acc, [])
        dfsLoop adjF validate start fuel (step.2 ++ stack) step.1

/-- All validated cycles, DFS from each eligible start in sorted order, with
the global `MAX_CYCLES` cap. -/
def detectCyclesFound (G : Graph) (maxCycDeg extLimit : ℕ) :
    List CycleResult :=
  let elig := (nodesOf G).filter
    (fun n => 2 ≤ totalDeg G n ∧ totalDeg G n ≤ maxCycDeg)
  let adjF := cycleAdj G elig
  let starts := List.insertionSort (· ≤ ·) elig
  (starts.foldl (fun acc s =>
    if 2000 ≤ acc.found.length then acc
    else if (adjF s).isEmpty then acc
    else dfsLoop adjF (validateCycleEdges G extLimit) s 5000
      [(s, [s], [s])] acc) ⟨[], []⟩).found

/-! Union-find over account ids, mirroring the `UnionFind` class (without
path compression, which changes no root). -/

structure UFS where
  entries : List AccountId
  parent : AccountId → AccountId
  rank : AccountId → ℕ

def ufInit : UFS := ⟨[], id, fun _ => 0⟩

def ufEnsure (u : UFS) (x : AccountId) : UFS :=
  if x ∈ u.entries then u
  else { entries := u.entries ++ [x],
         parent := Function.update u.parent x x,
         rank := Function.update u.rank x 0 }

def ufRoot (u : UFS) : ℕ → AccountId → AccountId
  | 0, x => x
  | fuel + 1, x => if u.parent x = x then x else ufRoot u fuel (u.parent x)

def ufFind (u : UFS) (x : AccountId) : UFS × AccountId :=
  let u' := ufEnsure u x
  (u', ufRoot u' (u'.entries.length + 1) x)

def ufUnion (u : UFS) (a b : AccountId) : UFS :=
  let f1 := ufFind u a
  let f2 := ufFind f1.1 b
  let u2 := f2.1
  if f1.2 = f2.2 then u2
  else
    let p := if u2.rank f1.2 < u2.rank f2.2 then (f2.2, f1.2) else (f1.2, f2.2)
    let u3 := { u2 with parent := Function.update u2.parent p.2 p.1 }
    if u2.rank p.1 = u2.rank p.2 then
      { u3 with rank := Function.update u3.rank p.1 (u3.rank p.1 + 1) }
    else u3

def assocAppendG {κ ν : Type} [DecidableEq κ] :
    List (κ × List ν) → κ → ν → List (κ × List ν)
  | [], k, v => [(k, [v])]
  | (k', vs) :: rest, k, v =>
      if k' = k then (k', vs ++ [v]) :: rest
      else (k', vs) :: assocAppendG rest k v

/-- `UnionFind.groups()`: components keyed by root, in insertion order. -/
def ufGroups (u : UFS) : List (AccountId × List AccountId) :=
  u.entries.foldl (fun acc n =>
    assocAppendG acc (ufRoot u (u.entries.length + 1) n) n) []

/-- The size-bounded union-find merge of the found cycles (rejecting merges
whose component would exceed `MAX_RING_SIZE = 30`). -/
def mergeCycles (found : List CycleResult) :
    UFS × (AccountId → Option ℕ) :=
  found.foldl (fun (st : UFS × (AccountId → Option ℕ)) cyc =>
    let s1 := cyc.nodes.foldl (fun (p : UFS × List AccountId) node =>
      let f := ufFind p.1 node
      (f.1, insertNew p.2 f.2)) (st.1, [])
    let mergedSize := (s1.2.map (fun r => (st.2 r).getD 1)).sum
    if 30 < mergedSize then (s1.1, st.2)
    else
      match cyc.nodes with
      | [] => (s1.1, st.2)
      | anchor :: rest =>
          let u2 := rest.foldl (fun u node => ufUnion u anchor node) s1.1
          (u2, Function.update st.2 (ufFind u2 anchor).2 (some mergedSize)))
    (ufInit, fun _ => none)

/-- `account_cycle_lengths`: distinct lengths of validated cycles a node
belongs to. -/
def cycleLensOf (found : List CycleResult) (n : AccountId) : List ℕ :=
  dedupFirst ((found.filter (fun c => n ∈ c.nodes)).map (·.nodes.length))

/-- The ring-building tail of `detect_cycles` (lines after the union-find):
tag every group member (immune included) with its `cycle_length_*` labels,
drop immune members from the ring, reject components with fewer than 3
non-immune members, score the rest. -/
def buildCycleStage (G : Graph) (immune : List AccountId)
    (found : List CycleResult) (pats0 : AccountId → Finset Pat)
    (cands0 : List Cand) : (AccountId → Finset Pat) × List Cand :=
  let u := (mergeCycles found).1
  let groups := @List.insertionSort (AccountId × List AccountId)
    (fun a b => a.1 ≤ b.1) (fun a b => Nat.decLe a.1 b.1) (ufGroups u)
  groups.foldl (fun (st : (AccountId → Finset Pat) × List Cand) g =>
    let members := g.2
    let pats1 := members.foldl (fun f m =>
      (cycleLensOf found m).foldl (fun f2 len =>
        Function.update f2 m (insert (cycleLenPat len) (f2 m))) f) st.1
    let nonImmune := members.filter (· ∉ immune)
    if nonImmune.length < 3 then (pats1, st.2)
    else
      let allLens := dedupFirst (nonImmune.map (cycleLensOf found)).flatten
      let conf1 := if allLens ≠ [] ∧ natMin allLens = 3 then
          qAdd (mkRat 9 10) (mkRat 5 100) else mkRat 9 10
      let totalExt := (nonImmune.map (fun m =>
        ((succsOf G m).filter (· ∉ nonImmune)).length +
        ((predsOf G m).filter (· ∉ nonImmune)).length)).sum
      let avgExt := qDiv (totalExt : ℚ) ((max nonImmune.length 1 : ℕ) : ℚ)
      let conf2 := if avgExt ≤ 2 then qAdd conf1 (mkRat 5 100) else conf1
      let base1 := if allLens ≠ [] then
          qAdd 50 (qMul (qSub 5 (natMin allLens : ℚ)) 10) else 50
      let base2 := qAdd base1 (min 30 (qMul (nonImmune.length : ℚ) 2))
      (pats1, st.2 ++ [⟨List.insertionSort (· ≤ ·) nonImmune, RingType.cycle,
        pyRound1 (min 100 base2), min 1 conf2, none⟩]))
    (pats0, cands0)

/-- `detect_cycles` as a state transformer. -/
def stageCycles (G : Graph) (maxCycDeg extLimit : ℕ) (st : PState) : PState :=
  let found := detectCyclesFound G maxCycDeg extLimit
  if found.isEmpty then st
  else
    let r := buildCycleStage G st.immune found st.pats st.cands
    { st with pats := r.1, cands := r.2 }

/-- `{"payroll", "merchant"}` — the labels immune accounts keep. -/
def immuneKeep : Finset Pat := {Pat.payroll, Pat.merchant}

/-- Stage 1.5 of `run_all`: strip fraud labels from immune accounts and
drop immune accounts from every candidate ring (discarding rings left with
fewer than 3 members). -/
def stageCleanup (st : PState) : PState :=
  { pats := fun a => if a ∈ st.immune then st.pats a ∩ immuneKeep else st.pats a,
    immune := st.immune,
    cands := st.cands.filterMap (fun c =>
      let cm := c.members.filter (· ∉ st.immune)
      if 3 ≤ cm.length then
        some { c with members := List.insertionSort (· ≤ ·) cm }
      else none) }

/-- `_jaccard_similarity` on dedup-listed sets. -/
def jaccardQ (a b : List AccountId) : ℚ :=
  if a.isEmpty ∧ b.isEmpty then 1
  else
    let uni := (dedupFirst (a ++ b)).length
    if 0 < uni then qDiv (((a.filter (· ∈ b)).length : ℕ) : ℚ) (uni : ℚ)
    else 0

/-- The index union-find of `_smurf_consolidation` (roots only; the
source's path halving changes no root). -/
def ifind (parent : List ℕ) : ℕ → ℕ → ℕ
  | 0, x => x
  | fuel + 1, x =>
      let p := parent.getD x x
      if p = x then x else ifind parent fuel p

def defaultCand : Cand := ⟨[], RingType.smurfing, 0, 0, none⟩

/-- `_smurf_consolidation`: group smurf candidates by core account, merge
Jaccard-overlapping candidates within each group, emit one ring per
component; non-smurf candidates pass through. -/
def smurfConsolidation (cands : List Cand) : List Cand :=
  let nonSmurf := cands.filter (fun c => c.ptype ≠ RingType.smurfing)
  let smurf := cands.filter (fun c => c.ptype = RingType.smurfing)
  if smurf.isEmpty then cands
  else
    let coreGroups := smurf.foldl (fun acc s => assocAppendG acc s.core s)
      ([] : List (Option AccountId × List Cand))
    nonSmurf ++ (coreGroups.map (fun g =>
      let group := g.2
      if group.length = 1 then group
      else
        let n := group.length
        let sets := group.map Cand.members
        let parent := (List.range n).foldl (fun par i =>
          (List.range n).foldl (fun par2 j =>
            if i < j ∧ mkRat 6 10 <
                jaccardQ (sets.getD i []) (sets.getD j []) then
              let ri := ifind par2 (n + 1) i
              let rj := ifind par2 (n + 1) j
              if ri = rj then par2 else par2.set rj ri
            else par2) par) (List.range n)
        let comps := (List.range n).foldl (fun acc i =>
          assocAppendG acc (ifind parent (n + 1) i) i)
          ([] : List (ℕ × List ℕ))
        comps.map (fun grp =>
          let merged := dedupFirst (grp.2.map (fun i => sets.getD i [])).flatten
          ⟨List.insertionSort (· ≤ ·) merged, RingType.smurfing,
           pyRound1 ((grp.2.map (fun i => (group.getD i defaultCand).risk)).foldl
             max 0),
           (grp.2.map (fun i => (group.getD i defaultCand).conf)).foldl max 0,
           g.1⟩))).flatten

/-- `_consolidate_rings`: nothing to do on an empty candidate list, else
smurf consolidation followed by global arbitration. -/
def consolidateRings (cands : List Cand) : List Ring :=
  if cands.isEmpty then []
  else arbitrate (smurfConsolidation cands)

theorem isoStep_pats_subset (nbrs : AccountId → List AccountId)
    (acc : (AccountId → ℚ) × (AccountId → Finset Pat)) (a x : AccountId) :
    (isoStep nbrs acc a).2 x ⊆ insert Pat.isolationCluster (acc.2 x) := by
  unfold isoStep
  split
  · exact Finset.subset_insert _ _
  · split
    · show Function.update acc.2 a (insert Pat.isolationCluster (acc.2 a)) x ⊆ _
      by_cases hx : x = a
      · subst hx
        rw [Function.update_same]
      · rw [Function.update_noteq hx]
        exact Finset.subset_insert _ _
    · exact Finset.subset_insert _ _

theorem isoPass_pats_subset (nbrs : AccountId → List AccountId)
    (order : List AccountId) (x : AccountId) :
    ∀ (sc : AccountId → ℚ) (pats : AccountId → Finset Pat),
      (isoPass nbrs order sc pats).2 x ⊆
        insert Pat.isolationCluster (pats x) := by
  induction order with
  | nil => exact fun sc pats => Finset.subset_insert _ _
  | cons a l ih =>
    intro sc pats
    have hstep : isoPass nbrs (a :: l) sc pats =
        isoPass nbrs l (isoStep nbrs (sc, pats) a).1
          (isoStep nbrs (sc, pats) a).2 := by
      simp [isoPass]
    rw [hstep]
    refine (ih _ _).trans ?_
    refine (Finset.insert_subset_insert _
      (isoStep_pats_subset nbrs (sc, pats) a x)).trans ?_
    rw [Finset.insert_idem]

theorem assocAppendG_forall {κ ν : Type} [DecidableEq κ] (P : ν → Prop) :
    ∀ (l : List (κ × List ν)) (k : κ) (v : ν),
      (∀ p ∈ l, ∀ w ∈ p.2, P w) → P v →
      ∀ p ∈ assocAppendG l k v, ∀ w ∈ p.2, P w := by
  intro l
  induction l with
  | nil =>
    intro k v _ hv p hp w hw
    simp only [assocAppendG, List.mem_singleton] at hp
    subst hp
    simp only [List.mem_singleton] at hw
    subst hw
    exact hv
  | cons q rest ih =>
    intro k v hall hv p hp w hw
    unfold assocAppendG at hp
    split at hp
    · rcases List.mem_cons.1 hp with rfl | hmem
      · simp only [List.mem_append, List.mem_singleton] at hw
        rcases hw with hw | rfl
        · exact hall q (List.mem_cons_self _ _) w hw
        · exact hv
      · exact hall _ (List.mem_cons_of_mem _ hmem) w hw
    · rcases List.mem_cons.1 hp with rfl | hmem
      · exact hall _ (List.mem_cons_self _ _) w hw
      · exact ih k v (fun p' hp' => hall p' (List.mem_cons_of_mem _ hp'))
          hv _ hmem w hw

theorem coreGroups_forall (P : Cand → Prop) (smurf : List Cand)
    (hall : ∀ c ∈ smurf, P c) :
    ∀ p ∈ smurf.foldl (fun acc s => assocAppendG acc s.core s)
        ([] : List (Option AccountId × List Cand)),
      ∀ c ∈ p.2, P c := by
  suffices h : ∀ (l : List Cand) (acc : List (Option AccountId × List Cand)),
      (∀ c ∈ l, P c) → (∀ p ∈ acc, ∀ c ∈ p.2, P c) →
      ∀ p ∈ l.foldl (fun acc s => assocAppendG acc s.core s) acc,
        ∀ c ∈ p.2, P c by
    exact h smurf [] hall (by simp)
  intro l
  induction l with
  | nil => exact fun acc _ hacc => hacc
  | cons s t ih =>
    intro acc hl hacc
    rw [List.foldl_cons]
    exact ih _ (fun c hc => hl c (List.mem_cons_of_mem _ hc))
      (assocAppendG_forall P acc s.core s hacc (hl s (List.mem_cons_self _ _)))

theorem getD_mem_or_default {α : Type} (l : List α) (i : ℕ) (d : α) :
    l.getD i d ∈ l ∨ l.getD i d = d := by
  by_cases h : i < l.length
  · left
    rw [List.getD_eq_getElem l d h]
    exact List.getElem_mem h
  · right
    exact List.getD_eq_default l d (le_of_not_lt h)

theorem smurfConsolidation_members (cands : List Cand) :
    ∀ r ∈ smurfConsolidation cands, ∀ x ∈ r.members,
      ∃ c ∈ cands, x ∈ c.members := by
  intro r hr x hx
  simp only [smurfConsolidation] at hr
  split at hr
  · exact ⟨r, hr, hx⟩
  · rcases List.mem_append.1 hr with h | h
    · exact ⟨r, (List.mem_filter.1 h).1, hx⟩
    · rcases List.mem_flatten.1 h with ⟨sub, hsub, hrsub⟩
      rcases List.mem_map.1 hsub with ⟨g, hg, rfl⟩
      have hgv : ∀ c ∈ g.2, c ∈ cands := fun c hc =>
        (List.mem_filter.1 (coreGroups_forall
          (· ∈ cands.filter (fun c0 => c0.ptype = RingType.smurfing)) _
          (fun c0 hc0 => hc0) g hg c hc)).1
      by_cases hlen : g.2.length = 1
      · rw [if_pos hlen] at hrsub
        exact ⟨r, hgv r hrsub, hx⟩
      · rw [if_neg hlen] at hrsub
        rcases List.mem_map.1 hrsub with ⟨grp, _, rfl⟩
        have hx' := mem_dedupFirst.1 (mem_insertionSortLe.1 hx)
        rcases List.mem_flatten.1 hx' with ⟨ms, hms, hxm⟩
        rcases List.mem_map.1 hms with ⟨i, _, rfl⟩
        rcases getD_mem_or_default (g.2.map Cand.members) i [] with hmem | hnil
        · rcases List.mem_map.1 hmem with ⟨c, hc, hceq⟩
          exact ⟨c, hgv c hc, hceq ▸ hxm⟩
        · rw [hnil] at hxm
          exact absurd hxm (List.not_mem_nil x)

theorem mergeNewNodes_subset (cand : Cand) (target : Ring) :
    ∀ x ∈ mergeNewNodes cand target, x ∈ cand.members := by
  intro x hx
  simp only [mergeNewNodes] at hx
  have hx' : x ∈ (dedupFirst cand.members).filter (· ∉ target.members) := by
    split at hx
    · exact mem_insertionSortLe.1 (List.take_subset _ _ hx)
    · exact hx
  exact mem_dedupFirst.1 (List.mem_filter.1 hx').1

theorem acceptMembers_subset (cand : Cand) :
    ∀ x ∈ acceptMembers cand, x ∈ cand.members := by
  intro x hx
  simp only [acceptMembers] at hx
  have hx' : x ∈ List.insertionSort (· ≤ ·) (dedupFirst cand.members) := by
    split at hx
    · exact List.take_subset _ _ hx
    · exact hx
  exact mem_dedupFirst.1 (mem_insertionSortLe.1 hx')

theorem arbMerge_rings_mem (st : ArbState) (cand : Cand) (best : ℕ)
    (target : Ring) (htarget : target ∈ st.rings) :
    ∀ r ∈ (arbMerge st cand best target).rings, ∀ x ∈ r.members,
      (∃ r0 ∈ st.rings, x ∈ r0.members) ∨ x ∈ cand.members := by
  intro r hr x hx
  rcases List.mem_or_eq_of_mem_set hr with h | rfl
  · exact Or.inl ⟨r, h, hx⟩
  · rcases List.mem_append.1 (mem_insertionSortLe.1 hx) with h | h
    · exact Or.inl ⟨target, htarget, h⟩
    · exact Or.inr (mergeNewNodes_subset cand target x h)

theorem arbAccept_rings_mem (st : ArbState) (cand : Cand) :
    ∀ r ∈ (arbAccept st cand).rings, ∀ x ∈ r.members,
      (∃ r0 ∈ st.rings, x ∈ r0.members) ∨ x ∈ cand.members := by
  intro r hr x hx
  unfold arbAccept at hr
  split at hr
  · exact Or.inl ⟨r, hr, hx⟩
  · rcases List.mem_append.1 hr with h | h
    · exact Or.inl ⟨r, h, hx⟩
    · simp only [List.mem_singleton] at h
      subst h
      exact Or.inr (acceptMembers_subset cand x hx)

theorem arbStep_rings_mem (st : ArbState) (cand : Cand) :
    ∀ r ∈ (arbStep st cand).rings, ∀ x ∈ r.members,
      (∃ r0 ∈ st.rings, x ∈ r0.members) ∨ x ∈ cand.members := by
  intro r hr x hx
  simp only [arbStep] at hr
  repeat' split at hr
  all_goals
    first
    | exact Or.inl ⟨r, hr, hx⟩
    | exact arbAccept_rings_mem st cand r hr x hx
    | (exact arbMerge_rings_mem st cand _ _
        (List.get?_mem (show st.rings.get? _ = some _ by assumption)) r hr x hx)

theorem arbFold_rings_mem (cs : List Cand) :
    ∀ st : ArbState,
      ∀ r ∈ (cs.foldl arbStep st).rings, ∀ x ∈ r.members,
        (∃ r0 ∈ st.rings, x ∈ r0.members) ∨ ∃ c ∈ cs, x ∈ c.members := by
  induction cs with
  | nil => exact fun st r hr x hx => Or.inl ⟨r, hr, hx⟩
  | cons c t ih =>
    intro st r hr x hx
    rw [List.foldl_cons] at hr
    rcases ih (arbStep st c) r hr x hx with ⟨r0, hr0, hx0⟩ | ⟨c0, hc0, hx0⟩
    · rcases arbStep_rings_mem st c r0 hr0 x hx0 with h | h
      · exact Or.inl h
      · exact Or.inr ⟨c, List.mem_cons_self _ _, h⟩
    · exact Or.inr ⟨c0, List.mem_cons_of_mem _ hc0, hx0⟩

theorem arbitrate_members (cands : List Cand) :
    ∀ r ∈ arbitrate cands, ∀ x ∈ r.members, ∃ c ∈ cands, x ∈ c.members := by
  intro r hr x hx
  unfold arbitrate at hr
  split at hr
  · exact absurd hr (List.not_mem_nil r)
  · rcases List.mem_map.1 hr with ⟨p, hp, rfl⟩
    have hp2 : p.2 ∈ List.insertionSort ringLe
        ((List.insertionSort candLe cands).foldl arbStep
          ⟨[], [], fun _ => none⟩).rings := by
      rw [show List.insertionSort ringLe
          ((List.insertionSort candLe cands).foldl arbStep
            ⟨[], [], fun _ => none⟩).rings =
          (List.insertionSort ringLe
            ((List.insertionSort candLe cands).foldl arbStep
              ⟨[], [], fun _ => none⟩).rings).enum.map Prod.snd from
        (List.enum_map_snd _).symm]
      exact List.mem_map_of_mem Prod.snd hp
    have hmem := (List.perm_insertionSort ringLe _).mem_iff.1 hp2
    rcases arbFold_rings_mem (List.insertionSort candLe cands) _ p.2 hmem x hx
      with ⟨r0, hr0, _⟩ | ⟨c, hc, hxc⟩
    · exact absurd hr0 (List.not_mem_nil r0)
    · exact ⟨c, (List.perm_insertionSort candLe cands).mem_iff.1 hc, hxc⟩

/-- C2 (amended): for ANY account `m` in the immunity map (in particular a
merchant in a validated 3-cycle), after the stage-1.5 cleanup of `run_all`
the account keeps only its payroll/merchant tag (so `cycle_length_3` is
gone), belongs to no candidate ring and hence to no final fraud ring, and
its stored suspicion score is 0 — for every node order, velocity/hub state
and anomaly-bonus function. -/
theorem c2_immune_member_stripped (G : Graph) (st : PState) (m : AccountId)
    (hm : m ∈ st.immune) :
    ((stageCleanup st).pats m ⊆ immuneKeep) ∧
    (Pat.cycle3 ∉ (stageCleanup st).pats m) ∧
    (∀ c ∈ (stageCleanup st).cands, m ∉ c.members) ∧
    (∀ r ∈ consolidateRings (stageCleanup st).cands, m ∉ r.members) ∧
    (∀ (nodes vel vel24 hubs : List AccountId) (bonus : AccountId → ℚ) (s : ℚ),
      (m, s) ∈ (calcScores G nodes (stageCleanup st).pats vel vel24 hubs
        (stageCleanup st).immune bonus).2 → s = 0) := by
  have hpats : (stageCleanup st).pats m = st.pats m ∩ immuneKeep := by
    simp only [stageCleanup, if_pos hm]
  have hsub : (stageCleanup st).pats m ⊆ immuneKeep := by
    rw [hpats]
    exact Finset.inter_subset_right
  have hcands : ∀ c ∈ (stageCleanup st).cands, m ∉ c.members := by
    intro c hc hmem
    simp only [stageCleanup] at hc
    rcases List.mem_filterMap.1 hc with ⟨c0, _, hc0⟩
    split at hc0
    · have : c.members =
          List.insertionSort (· ≤ ·) (c0.members.filter (· ∉ st.immune)) := by
        rw [← Option.some_inj.1 hc0]
      rw [this] at hmem
      have := (List.mem_filter.1 (mem_insertionSortLe.1 hmem)).2
      simp only [decide_eq_true_eq] at this
      exact this hm
    · exact absurd hc0 (by simp)
  refine ⟨hsub, fun hc3 => by
    have := hsub hc3
    simp [immuneKeep] at this, hcands, ?_, ?_⟩
  · intro r hr hmem
    have hrings : consolidateRings (stageCleanup st).cands =
        if (stageCleanup st).cands.isEmpty then []
        else arbitrate (smurfConsolidation (stageCleanup st).cands) := rfl
    rw [hrings] at hr
    split at hr
    · exact absurd hr (List.not_mem_nil r)
    · rcases arbitrate_members _ r hr m hmem with ⟨c, hc, hxc⟩
      rcases smurfConsolidation_members _ c hc m hxc with ⟨c0, hc0, hxc0⟩
      exact hcands c0 hc0 hxc0
  · intro nodes vel vel24 hubs bonus s hs
    simp only [calcScores] at hs
    rcases List.mem_map.1 hs with ⟨n, _, hn⟩
    have hnm : n = m := congrArg Prod.fst hn
    subst hnm
    have hsval : finalGate (suppressNode (stageCleanup st).immune hubs
        ((isoPass (undirNbrs G) nodes
          (prelimOf nodes (stageCleanup st).pats vel vel24 bonus)
          (stageCleanup st).pats).2 n) n
        ((isoPass (undirNbrs G) nodes
          (prelimOf nodes (stageCleanup st).pats vel vel24 bonus)
          (stageCleanup st).pats).1 n)) = s := congrArg Prod.snd hn
    have himm : n ∈ (stageCleanup st).immune := hm
    have hp2 : (isoPass (undirNbrs G) nodes
        (prelimOf nodes (stageCleanup st).pats vel vel24 bonus)
        (stageCleanup st).pats).2 n ⊆
        insert Pat.isolationCluster ((stageCleanup st).pats n) :=
      isoPass_pats_subset (undirNbrs G) nodes n _ _
    have hstrong : ¬ ((isoPass (undirNbrs G) nodes
        (prelimOf nodes (stageCleanup st).pats vel vel24 bonus)
        (stageCleanup st).pats).2 n ∩ strongFraudPats).Nonempty := by
      rintro ⟨p, hp⟩
      have hpstrong := (Finset.mem_inter.1 hp).2
      rcases Finset.mem_insert.1 (hp2 (Finset.mem_inter.1 hp).1) with rfl | hmem
      · simp [strongFraudPats] at hpstrong
      · have hpk : p ∈ immuneKeep := hsub hmem
        revert hpk hpstrong
        cases p <;> simp [immuneKeep, strongFraudPats]
    have hsupp : ∀ q : ℚ, suppressNode (stageCleanup st).immune hubs
        ((isoPass (undirNbrs G) nodes
          (prelimOf nodes (stageCleanup st).pats vel vel24 bonus)
          (stageCleanup st).pats).2 n) n q = 0 := by
      intro q
      simp only [suppressNode]
      split
      · rfl
      · exact if_pos ⟨himm, hstrong⟩
    rw [← hsval, hsupp]
    decide

/-! Concrete run of scenario 6 (merchant M inside a 3-cycle): ten distinct
payers send M round amounts within 72h, making M immune as a merchant, and
M also sits on the cycle 1 → 2 → 20 → 1 that satisfies every cycle
constraint. -/

def c2G : Graph :=
  [⟨100, 20, 100, 0⟩, ⟨101, 20, 100, 3600⟩, ⟨102, 20, 100, 7200⟩,
   ⟨103, 20, 100, 10800⟩, ⟨104, 20, 100, 14400⟩, ⟨105, 20, 100, 18000⟩,
   ⟨106, 20, 100, 21600⟩, ⟨107, 20, 100, 25200⟩, ⟨108, 20, 100, 28800⟩,
   ⟨109, 20, 100, 32400⟩, ⟨20, 1, 100, 3600000⟩, ⟨1, 2, 100, 3603600⟩,
   ⟨2, 20, 100, 3607200⟩]

def c2post : PState := stageCycles c2G 20 5 (stage0 c2G)

def c2res : PState := stageCleanup c2post

def c2scores :=
  calcScores c2G (nodesOf c2G) c2res.pats [] [] [] c2res.immune (fun _ => 0)

set_option maxRecDepth 40000 in
/-- C2 counterexample: merchant 20 is immune, the cycle detector finds and
validates the cycle [1, 2, 20] and records `cycle_length_3` on node 20, yet
the stage-1.5 cleanup strips that pattern back to `{merchant}`, no candidate
ring survives, and node 20's final score is 0 — contrary to the spec's
scenario 6, which promises the cycle pattern and the ring are kept. -/
theorem c2_merchant_cycle_counterexample :
    immunityOf c2G 20 = some Pat.merchant ∧
    (detectCyclesFound c2G 20 5).map CycleResult.nodes = [[1, 2, 20]] ∧
    (validateCycleEdges c2G 5 [1, 2, 20]).isSome = true ∧
    Pat.cycle3 ∈ c2post.pats 20 ∧
    c2res.pats 20 = {Pat.merchant} ∧
    consolidateRings c2res.cands = [] ∧
    ((20 : AccountId), (0 : ℚ)) ∈ c2scores.2 :=
  ⟨by decide, by decide, by decide, by decide, by decide, by decide, by decide⟩

set_option maxRecDepth 40000 in
/-- C2 witness: the amended theorem applied to the concrete scenario-6 state
after the cycle stage, at immune merchant 20. -/
theorem c2_immune_member_stripped_witness :
    (20 : AccountId) ∈ c2post.immune ∧
    Pat.cycle3 ∉ (stageCleanup c2post).pats 20 :=
  ⟨by decide, (c2_immune_member_stripped c2G c2post 20 (by decide)).2.1⟩

end Rift
